import Mathlib

/-!
# Verification of the nginx 1.2.6 pool allocator, array and list

Shallow embedding of `src/core/ngx_palloc.c`, `src/core/ngx_array.c` and
`src/core/ngx_list.c`.  Machine pointers are modelled as `Nat` addresses; the
raw allocator (`ngx_alloc` / `ngx_memalign` from `src/os/unix/ngx_alloc.c`)
is modelled as a monotone fresh-address counter bounded by the 64-bit address
space, so that distinct raw allocations are disjoint and allocation fails
exactly when the address space is exhausted.  `size_t` subtraction of
pointers is modelled with its C wrap-around semantics (`sizeT_sub`).
-/

namespace Nginx

/-- Modelled from the spec: `NGX_ALIGNMENT` (default small-allocation
alignment, `sizeof(unsigned long)` on a 64-bit platform) comes from
`ngx_config.h`, which is not part of the repository snapshot. -/
def NGX_ALIGNMENT : Nat := 8

/-- Modelled from the spec: `NGX_POOL_ALIGNMENT` (alignment of pool blocks,
16) comes from `ngx_palloc.h`, which is not part of the repository snapshot. -/
def NGX_POOL_ALIGNMENT : Nat := 16

/-- Modelled from the spec: the "fixed ceiling constant" bounding bump
allocation, `NGX_MAX_ALLOC_FROM_POOL = ngx_pagesize - 1` with 4096-byte
pages, from `ngx_palloc.h` (not in the snapshot). -/
def NGX_MAX_ALLOC_FROM_POOL : Nat := 4095

/-- Modelled from the spec: size of the pool header `ngx_pool_t`
(`d` + `max` + `current` + `chain` + `large` + `cleanup` + `log`)
on a 64-bit platform; the struct lives in `ngx_palloc.h` (not in the
snapshot). -/
def sizeof_ngx_pool_t : Nat := 80

/-- Modelled from the spec: size of the block-only header `ngx_pool_data_t`
(`last` + `end` + `next` + `failed`) on a 64-bit platform. -/
def sizeof_ngx_pool_data_t : Nat := 32

/-- Modelled from the spec: size of `ngx_pool_large_t` (`next` + `alloc`). -/
def sizeof_ngx_pool_large_t : Nat := 16

/-- Modelled from the spec: size of `ngx_pool_cleanup_t`
(`handler` + `data` + `next`). -/
def sizeof_ngx_pool_cleanup_t : Nat := 24

/-- Modelled from the spec: size of `ngx_list_part_t` (`elts` + `nelts` +
`next`). -/
def sizeof_ngx_list_part_t : Nat := 24

/-- Modelled from the spec: size of `ngx_list_t` (`last` + embedded `part` +
`size` + `nalloc` + `pool`). -/
def sizeof_ngx_list_t : Nat := 56

/-- The 64-bit address-space bound of the modelled machine. -/
def MEMLIMIT : Nat := 2 ^ 64

/-- `NGX_OK` from `ngx_core.h` (not in the snapshot). -/
def NGX_OK : Int := 0

/-- `NGX_DECLINED` from `ngx_core.h` (not in the snapshot). -/
def NGX_DECLINED : Int := -5

/-- `ngx_align_ptr(p, a)`: round address `p` up to a multiple of `a`. -/
def ngx_align_ptr (p a : Nat) : Nat := ((p + a - 1) / a) * a

/-- C `size_t` subtraction of two addresses, with unsigned wrap-around:
`(size_t) (a - b)`. -/
def sizeT_sub (a b : Nat) : Nat := (((a : Int) - (b : Int)) % (MEMLIMIT : Int)).toNat

/-- One block of a pool: the C code addresses it through the embedded
`ngx_pool_data_t d` (fields `last`, `end`, `failed`; the `next` link is the
position in the `Pool.blocks` list).  `start` is the block's own address,
`(u_char *) p`. -/
structure BlockD where
  start : Nat
  last : Nat
  end_ : Nat
  failed : Nat
deriving DecidableEq, Repr

/-- One record of the cleanup chain, `ngx_pool_cleanup_t`: the handler is an
abstract function identifier (`none` = `NULL` handler), `data` the captured
data pointer (`0` = `NULL`). -/
structure CleanupRec where
  handler : Option Nat
  data : Nat
deriving DecidableEq, Repr

/-- The pool, `ngx_pool_t`.  `blocks` is the chain of `ngx_pool_data_t`
blocks (head = the first block, which carries the pool header);
`current` is the index of `pool->current` in that chain; `large` is the
chain of `ngx_pool_large_t.alloc` values (`0` = `NULL`, a freed slot);
`cleanup` the chain of cleanup records; `fresh` the raw allocator's
fresh-address frontier; `mem` the byte memory (used by `ngx_memcpy`). -/
structure Pool where
  blocks : List BlockD
  current : Nat
  max : Nat
  large : List Nat
  cleanup : List CleanupRec
  fresh : Nat
  mem : Nat → Nat

/-- A default pool, used only to project out of `Option` in concrete runs. -/
def dummyPool : Pool :=
  { blocks := [], current := 0, max := 0, large := [], cleanup := [],
    fresh := 0, mem := fun _ => 0 }

/-- Modelled from the spec: `ngx_memalign` (RawAllocator.alignedAllocate),
returning an `alignment`-aligned fresh address and the new frontier, or
`none` when the 64-bit address space is exhausted. -/
def ngx_memalign (alignment size fresh : Nat) : Option (Nat × Nat) :=
  let p := ngx_align_ptr fresh alignment
  if p + size ≤ MEMLIMIT then some (p, p + size) else none

/-- Modelled from the spec: `ngx_alloc` (RawAllocator.allocate, a `malloc`
wrapper; `malloc` returns maximally aligned memory). -/
def ngx_alloc (size fresh : Nat) : Option (Nat × Nat) :=
  ngx_memalign NGX_POOL_ALIGNMENT size fresh

/-- `ngx_create_pool(size, log)`: one aligned raw buffer of `size` bytes,
first block laid out inside it, `max = min(size - sizeof(ngx_pool_t),
NGX_MAX_ALLOC_FROM_POOL)` (the C subtraction is `size_t`, hence
`sizeT_sub`), `current` = the pool itself. -/
def ngx_create_pool (size : Nat) : Option Pool :=
  match ngx_memalign NGX_POOL_ALIGNMENT size NGX_POOL_ALIGNMENT with
  | none => none
  | some (p, fresh) =>
    some { blocks := [⟨p, p + sizeof_ngx_pool_t, p + size, 0⟩],
           current := 0,
           max := min (sizeT_sub size sizeof_ngx_pool_t) NGX_MAX_ALLOC_FROM_POOL,
           large := [], cleanup := [], fresh := fresh, mem := fun _ => 0 }

/-- The shared do-while search loop of `ngx_palloc` / `ngx_pnalloc` over the
chain suffix starting at `pool->current`: in each visited block set
`m = ngx_align_ptr(p->d.last, NGX_ALIGNMENT)` (aligned variant) or
`m = p->d.last` (unaligned variant), and claim `[m, m + size)` when
`(size_t) (p->d.end - m) >= size`. -/
def tryAlloc (size : Nat) (al : Bool) : List BlockD → Option (Nat × List BlockD)
  | [] => none
  | b :: bs =>
    let m := if al then ngx_align_ptr b.last NGX_ALIGNMENT else b.last
    if size ≤ sizeT_sub b.end_ m then
      some (m, { b with last := m + size } :: bs)
    else
      match tryAlloc size al bs with
      | some (m', bs') => some (m', b :: bs')
      | none => none

/-- The failure-counter walk of `ngx_palloc_block`:
`for (p = current; p->d.next; p = p->d.next) if (p->d.failed++ > 4) current
= p->d.next;`.  Returns the updated chain suffix and, when some visited
block's pre-increment counter exceeded 4, the relative index of the block
just past the last such block (the final value of the C local `current`,
relative to the walk's start).  The loop body runs only for blocks that
have a successor, so the final block of the suffix is not incremented. -/
def failWalk : List BlockD → List BlockD × Option Nat
  | [] => ([], none)
  | [b] => ([b], none)
  | b :: b' :: bs =>
    let r := failWalk (b' :: bs)
    ({ b with failed := b.failed + 1 } :: r.1,
     match r.2 with
     | some j => some (j + 1)
     | none => if 4 < b.failed then some 1 else none)

/-- `ngx_palloc_block(pool, size)`: allocate a new block of the same total
size as the first block (`psize = (size_t) (pool->d.end - (u_char *)
pool)`), place the data region after the (aligned) `ngx_pool_data_t`
header, pre-advance its cursor past the request, run the failure walk from
`pool->current`, link the new block at the tail, and set `pool->current`
(the C `current ? current : new` — `current` starts at the non-null
`pool->current`, so it is never the new block). -/
def ngx_palloc_block (pool : Pool) (size : Nat) : Option (Nat × Pool) :=
  match pool.blocks with
  | [] => none
  | b0 :: _ =>
    let psize := sizeT_sub b0.end_ b0.start
    match ngx_memalign NGX_POOL_ALIGNMENT psize pool.fresh with
    | none => none
    | some (mb, fresh') =>
      let m := ngx_align_ptr (mb + sizeof_ngx_pool_data_t) NGX_ALIGNMENT
      let newB : BlockD := ⟨mb, m + size, mb + psize, 0⟩
      let w := failWalk (pool.blocks.drop pool.current)
      some (m, { pool with
                   blocks := pool.blocks.take pool.current ++ w.1 ++ [newB],
                   current := pool.current + (w.2.getD 0),
                   fresh := fresh' })

/-- The bounded reuse scan of `ngx_palloc_large`: walk the `large` chain,
reusing the first record whose `alloc` is `NULL` (slot value `0`); the
counter check `if (n++ > 3) break` runs after a record has been examined. -/
def largeScan (p : Nat) : List Nat → Nat → Option (List Nat)
  | [], _ => none
  | slot :: rest, n =>
    if slot = 0 then some (p :: rest)
    else if 3 < n then none
    else match largeScan p rest (n + 1) with
         | some rest' => some (slot :: rest')
         | none => none

/-- The small-allocation path shared by `ngx_palloc` and `ngx_pnalloc`
(`size <= pool->max`): search from `pool->current`, else grow the chain. -/
def ngx_palloc_small (pool : Pool) (size : Nat) (al : Bool) : Option (Nat × Pool) :=
  match tryAlloc size al (pool.blocks.drop pool.current) with
  | some (m, bs') =>
    some (m, { pool with blocks := pool.blocks.take pool.current ++ bs' })
  | none => ngx_palloc_block pool size

/-- `ngx_palloc_large(pool, size)`: raw-allocate, then either reuse a freed
record found by the bounded scan, or bump-allocate a fresh
`ngx_pool_large_t` (`large = ngx_palloc(pool, sizeof(ngx_pool_large_t))`)
and insert it at the head of the chain.  When
`sizeof(ngx_pool_large_t) > pool->max` the C record allocation would map
back into `ngx_palloc_large` and recurse forever; that unreachable
configuration is modelled as failure. -/
def ngx_palloc_large (pool : Pool) (size : Nat) : Option (Nat × Pool) :=
  match ngx_alloc size pool.fresh with
  | none => none
  | some (p, fresh') =>
    let pool1 := { pool with fresh := fresh' }
    match largeScan p pool1.large 0 with
    | some large' => some (p, { pool1 with large := large' })
    | none =>
      if sizeof_ngx_pool_large_t ≤ pool1.max then
        match ngx_palloc_small pool1 sizeof_ngx_pool_large_t true with
        | none => none
        | some (_, pool2) => some (p, { pool2 with large := p :: pool2.large })
      else
        none

/-- `ngx_palloc(pool, size)`: aligned bump allocation when
`size <= pool->max`, large allocation otherwise. -/
def ngx_palloc (pool : Pool) (size : Nat) : Option (Nat × Pool) :=
  if size ≤ pool.max then ngx_palloc_small pool size true
  else ngx_palloc_large pool size

/-- `ngx_pnalloc(pool, size)`: as `ngx_palloc` but without aligning the
cursor. -/
def ngx_pnalloc (pool : Pool) (size : Nat) : Option (Nat × Pool) :=
  if size ≤ pool.max then ngx_palloc_small pool size false
  else ngx_palloc_large pool size

/-- Observable events of `ngx_destroy_pool` / `ngx_reset_pool` /
`ngx_pfree`: a cleanup handler invoked on its data, a large buffer given to
`ngx_free`, a block given to `ngx_free`. -/
inductive Event where
  | callHandler (h : Nat) (data : Nat)
  | freeLarge (p : Nat)
  | freeBlock (p : Nat)
deriving DecidableEq, Repr

/-- First loop of `ngx_destroy_pool`: `for (c = pool->cleanup; c; c =
c->next) if (c->handler) c->handler(c->data);`. -/
def runCleanups : List CleanupRec → List Event
  | [] => []
  | c :: cs =>
    match c.handler with
    | some h => Event.callHandler h c.data :: runCleanups cs
    | none => runCleanups cs

/-- Second loop of `ngx_destroy_pool` (also the loop of `ngx_reset_pool`):
free every non-`NULL` `l->alloc` of the large chain. -/
def freeLarges : List Nat → List Event
  | [] => []
  | a :: ls => if a = 0 then freeLarges ls else Event.freeLarge a :: freeLarges ls

/-- Third loop of `ngx_destroy_pool`: free every block of the chain, in
chain order. -/
def freeBlocks : List BlockD → List Event
  | [] => []
  | b :: bs => Event.freeBlock b.start :: freeBlocks bs

/-- `ngx_destroy_pool(pool)`: run the cleanup handlers (head to tail), free
the large buffers, free the blocks.  The result is the event trace. -/
def ngx_destroy_pool (pool : Pool) : List Event :=
  runCleanups pool.cleanup ++ freeLarges pool.large ++ freeBlocks pool.blocks

/-- The block loop of `ngx_reset_pool`: `p->d.last = (u_char *) p +
sizeof(ngx_pool_t);` for every block of the chain — the full pool-header
size, also for blocks that only carry a `ngx_pool_data_t` header. -/
def resetBlocks : List BlockD → List BlockD
  | [] => []
  | b :: bs => { b with last := b.start + sizeof_ngx_pool_t } :: resetBlocks bs

/-- `ngx_reset_pool(pool)`: free the large buffers, clear the large chain
(`pool->large = NULL`), reset every block's cursor.  Returns the new pool
state and the event trace. -/
def ngx_reset_pool (pool : Pool) : Pool × List Event :=
  ({ pool with large := [], blocks := resetBlocks pool.blocks },
   freeLarges pool.large)

/-- The scan loop of `ngx_pfree`: find the first record with `p ==
l->alloc`, free it and null the slot. -/
def pfreeChain (p : Nat) : List Nat → Option (List Nat)
  | [] => none
  | slot :: rest =>
    if p = slot then some (0 :: rest)
    else match pfreeChain p rest with
         | some rest' => some (slot :: rest')
         | none => none

/-- `ngx_pfree(pool, p)`: `NGX_OK` and a nulled slot when `p` is tracked in
the large chain, `NGX_DECLINED` and an unchanged pool otherwise. -/
def ngx_pfree (pool : Pool) (p : Nat) : Int × Pool :=
  match pfreeChain p pool.large with
  | some large' => (NGX_OK, { pool with large := large' })
  | none => (NGX_DECLINED, pool)

/-- `ngx_pool_cleanup_add(p, size)`: bump-allocate a `ngx_pool_cleanup_t`
(plus `size` bytes of data when `size != 0`), insert it at the head of the
cleanup chain with a `NULL` handler. -/
def ngx_pool_cleanup_add (pool : Pool) (size : Nat) : Option Pool :=
  match ngx_palloc pool sizeof_ngx_pool_cleanup_t with
  | none => none
  | some (_, pool1) =>
    if size ≠ 0 then
      match ngx_palloc pool1 size with
      | none => none
      | some (d, pool2) => some { pool2 with cleanup := ⟨none, d⟩ :: pool2.cleanup }
    else
      some { pool1 with cleanup := ⟨none, 0⟩ :: pool1.cleanup }

/-- Pointwise byte store, the effect of one `*(dst + i) = *(src + i)`. -/
def memWrite (m : Nat → Nat) (a v : Nat) : Nat → Nat :=
  fun x => if x = a then v else m x

/-- `ngx_memcpy(dst, src, n)` on the byte memory. -/
def ngx_memcpy (m : Nat → Nat) (dst src : Nat) : Nat → (Nat → Nat)
  | 0 => m
  | n + 1 => memWrite (ngx_memcpy m dst src n) (dst + n) (m (src + n))

/-- `ngx_array_t` (from `ngx_array.h`): `elts` is the buffer address,
`nelts` the element count, `size` the element size, `nalloc` the capacity.
The owning pool is passed explicitly. -/
structure NgxArray where
  elts : Nat
  nelts : Nat
  size : Nat
  nalloc : Nat
deriving DecidableEq, Repr

/-- `ngx_array_push(a)`: on overflow, extend in place when the buffer end
equals `p->d.last` of the pool's first block and `p->d.last + a->size <=
p->d.end`; otherwise bump-allocate a doubled buffer and `ngx_memcpy` the
old contents.  Returns the address of slot `nelts`. -/
def ngx_array_push (a : NgxArray) (pool : Pool) : Option (Nat × NgxArray × Pool) :=
  if a.nelts = a.nalloc then
    let sz := a.size * a.nalloc
    match pool.blocks with
    | [] => none
    | b0 :: bs =>
      if a.elts + sz = b0.last ∧ b0.last + a.size ≤ b0.end_ then
        some (a.elts + a.size * a.nelts,
              { a with nalloc := a.nalloc + 1, nelts := a.nelts + 1 },
              { pool with blocks := { b0 with last := b0.last + a.size } :: bs })
      else
        match ngx_palloc pool (2 * sz) with
        | none => none
        | some (newp, pool1) =>
          some (newp + a.size * a.nelts,
                { a with elts := newp, nalloc := a.nalloc * 2, nelts := a.nelts + 1 },
                { pool1 with mem := ngx_memcpy pool1.mem newp a.elts sz })
  else
    some (a.elts + a.size * a.nelts, { a with nelts := a.nelts + 1 }, pool)

/-- One part of an `ngx_list_t`: buffer address and element count (the
`next` link is the position in `NgxList.parts`; `l->last` is the final
element of that list). -/
structure NgxListPart where
  elts : Nat
  nelts : Nat
deriving DecidableEq, Repr

/-- `ngx_list_t`: the chain of parts, the element size and the per-part
capacity `nalloc`. -/
structure NgxList where
  parts : List NgxListPart
  size : Nat
  nalloc : Nat
deriving DecidableEq, Repr

/-- `ngx_list_create(pool, n, size)`: allocate the `ngx_list_t` header and
the first part's buffer, `part.nelts = 0`, `last = &l->part`. -/
def ngx_list_create (pool : Pool) (n size : Nat) : Option (NgxList × Pool) :=
  match ngx_palloc pool sizeof_ngx_list_t with
  | none => none
  | some (_, pool1) =>
    match ngx_palloc pool1 (n * size) with
    | none => none
    | some (e, pool2) =>
      some ({ parts := [⟨e, 0⟩], size := size, nalloc := n }, pool2)

/-- `ngx_list_push(l)`: when the last part is full, allocate a new part
header and buffer and link it at the tail; return the address of slot
`nelts` of the last part and increment its count. -/
def ngx_list_push (l : NgxList) (pool : Pool) : Option (Nat × NgxList × Pool) :=
  match l.parts.getLast? with
  | none => none
  | some last =>
    if last.nelts = l.nalloc then
      match ngx_palloc pool sizeof_ngx_list_part_t with
      | none => none
      | some (_, pool1) =>
        match ngx_palloc pool1 (l.nalloc * l.size) with
        | none => none
        | some (e, pool2) =>
          some (e, { l with parts := l.parts ++ [⟨e, 1⟩] }, pool2)
    else
      some (last.elts + l.size * last.nelts,
            { l with parts := l.parts.dropLast ++ [⟨last.elts, last.nelts + 1⟩] },
            pool)

/-! ## Specification-side predicates -/

/-- Two regions `[r.1, r.1 + r.2)` and `[s.1, s.1 + s.2)` do not overlap. -/
def RegDisj (r s : Nat × Nat) : Prop := r.1 + r.2 ≤ s.1 ∨ s.1 + s.2 ≤ r.1

/-- Run a sequence of bump allocations (`true` = `ngx_palloc`, `false` =
`ngx_pnalloc`), collecting the returned regions `(address, size)`. -/
def runAllocs : Pool → List (Bool × Nat) → List (Nat × Nat) →
    Option (List (Nat × Nat) × Pool)
  | pool, [], acc => some (acc, pool)
  | pool, (al, sz) :: rest, acc =>
    match (if al then ngx_palloc pool sz else ngx_pnalloc pool sz) with
    | none => none
    | some (m, pool') => runAllocs pool' rest ((m, sz) :: acc)

/-- The internal well-formedness invariant of a pool whose blocks all have
total size `psize`, together with the regions handed out so far. -/
def Inv (psize : Nat) (pool : Pool) (regs : List (Nat × Nat)) : Prop :=
  pool.current < pool.blocks.length ∧
  pool.max + sizeof_ngx_pool_t ≤ psize ∧
  NGX_ALIGNMENT ∣ psize ∧ psize < MEMLIMIT ∧
  (∀ b ∈ pool.blocks,
     NGX_POOL_ALIGNMENT ∣ b.start ∧ b.start ≤ b.last ∧ b.last ≤ b.end_ ∧
     b.end_ = b.start + psize ∧ b.end_ ≤ pool.fresh) ∧
  pool.blocks.Pairwise (fun b b' => b.end_ ≤ b'.start) ∧
  (∀ r ∈ regs, ∃ b ∈ pool.blocks, b.start ≤ r.1 ∧ r.1 + r.2 ≤ b.last) ∧
  regs.Pairwise RegDisj

/-- The well-formedness invariant of a list: every part except possibly the
last is full, and no part overflows its capacity. -/
def ListInv (l : NgxList) : Prop :=
  (∀ p ∈ l.parts.dropLast, p.nelts = l.nalloc) ∧
  (∀ p ∈ l.parts, p.nelts ≤ l.nalloc)

/-! ## Concrete scenario states (used by witnesses and counterexamples) -/

/-- A pool of 1024 bytes: one block `[16, 1040)`, cursor at 96, `max` 944. -/
def pool1024 : Pool := (ngx_create_pool 1024).getD dummyPool

/-- A 128-byte pool after one 48-byte allocation: its single block is full
(`last = end = 144`), so the next small request grows the chain. -/
def fullPool128 : Pool :=
  ((ngx_create_pool 128).bind fun p => ngx_palloc p 48).elim dummyPool Prod.snd

/-- The 128-byte pool after a second 48-byte request has forced
`ngx_palloc_block` to append a second block. -/
def grownPool128 : Pool := (ngx_palloc fullPool128 48).elim dummyPool Prod.snd

/-- `grownPool128` after `ngx_reset_pool`. -/
def resetPool128 : Pool := (ngx_reset_pool grownPool128).1

/-- `ngx_palloc_block` applied once more to `grownPool128` (both existing
blocks are full, none has failed more than 4 times). -/
def c7blockRes : Nat × Pool := (ngx_palloc_block fullPool128 48).getD (0, dummyPool)

/-- A 4096-byte pool carrying five large allocations of 5000 bytes, after
`ngx_pfree` of the first of them: the large chain is
`[24144, 19136, 14128, 9120, 0]` — four occupied records followed by one
freed record in the fifth position. -/
def c6mid : Pool :=
  ((do
    let pool ← ngx_create_pool 4096
    let (q1, p1) ← ngx_palloc pool 5000
    let (_, p2) ← ngx_palloc p1 5000
    let (_, p3) ← ngx_palloc p2 5000
    let (_, p4) ← ngx_palloc p3 5000
    let (_, p5) ← ngx_palloc p4 5000
    pure (ngx_pfree p5 q1).2 : Option Pool)).getD dummyPool

/-- A sixth large allocation of 5000 bytes from `c6mid`. -/
def c6run : Option (Nat × Pool) := ngx_palloc_large c6mid 5000

/-- The pointer returned by the sixth large allocation. -/
def c6ptr : Nat := (c6run.map Prod.fst).getD 0

/-- The pool after the sixth large allocation. -/
def c6final : Pool := (c6run.map Prod.snd).getD dummyPool

/-- Default result triple for projecting `ngx_array_push` runs. -/
def dummyArrayRes : Nat × NgxArray × Pool := (0, ⟨0, 0, 0, 0⟩, dummyPool)

/-- `pool1024` after an 8-byte bump allocation at 96: the allocation
`[96, 104)` is the most recent one, `last = 104`. -/
def c9pool : Pool := (ngx_palloc pool1024 8).elim dummyPool Prod.snd

/-- An array of capacity 2, element size 4, over the buffer `[96, 104)`
just allocated from `c9pool`. -/
def c9a0 : NgxArray := ⟨96, 0, 4, 2⟩

/-- First `ngx_array_push`. -/
def c9r1 : Nat × NgxArray × Pool := (ngx_array_push c9a0 c9pool).getD dummyArrayRes

/-- Second `ngx_array_push`. -/
def c9r2 : Nat × NgxArray × Pool := (ngx_array_push c9r1.2.1 c9r1.2.2).getD dummyArrayRes

/-- Third `ngx_array_push` (triggers in-place growth). -/
def c9r3 : Nat × NgxArray × Pool := (ngx_array_push c9r2.2.1 c9r2.2.2).getD dummyArrayRes

/-- A list with part capacity 2 and element size 4 on a fresh 1024-byte
pool, after five `ngx_list_push` calls. -/
def c10run : Option (NgxList × Pool) := do
  let pool ← ngx_create_pool 1024
  let (l0, q0) ← ngx_list_create pool 2 4
  let (_, l1, q1) ← ngx_list_push l0 q0
  let (_, l2, q2) ← ngx_list_push l1 q1
  let (_, l3, q3) ← ngx_list_push l2 q2
  let (_, l4, q4) ← ngx_list_push l3 q3
  let (_, l5, q5) ← ngx_list_push l4 q4
  pure (l5, q5)

/-- The list produced by `c10run`. -/
def c10list : NgxList := (c10run.map Prod.fst).getD ⟨[], 0, 0⟩

/-- A one-part list (capacity 2, one element used) for the witness of the
list invariant preservation. -/
def c10wlist : NgxList := ⟨[⟨96, 1⟩], 4, 2⟩

/-- The result of pushing onto `c10wlist`. -/
def c10wres : Nat × NgxList × Pool :=
  (ngx_list_push c10wlist pool1024).getD (0, ⟨[], 0, 0⟩, dummyPool)

/-- `ngx_pool_cleanup_add` applied to `pool1024` with no extra data. -/
def c2added : Pool := (ngx_pool_cleanup_add pool1024 0).getD dummyPool

/-- A request sequence exercising both small-allocation variants and block
growth on `pool1024` (`true` = `ngx_palloc`, `false` = `ngx_pnalloc`). -/
def c1reqs : List (Bool × Nat) := [(true, 13), (false, 5), (true, 944), (true, 20)]

/-- The run of `c1reqs` on `pool1024`. -/
def c1run : Option (List (Nat × Nat) × Pool) := runAllocs pool1024 c1reqs []

/-- The regions returned by `c1run`. -/
def c1regs : List (Nat × Nat) := (c1run.map Prod.fst).getD []

/-- The pool after `c1run`. -/
def c1final : Pool := (c1run.map Prod.snd).getD dummyPool

/-! ## Arithmetic helper lemmas -/

theorem ngx_align_ptr_ge (p a : Nat) (ha : 0 < a) : p ≤ ngx_align_ptr p a := by
  have h : p + a - 1 < (p + a - 1) / a * a + a := Nat.lt_div_mul_add ha
  unfold ngx_align_ptr
  generalize (p + a - 1) / a * a = t at h ⊢
  omega

theorem ngx_align_ptr_le {p b : Nat} (a : Nat) (ha : 0 < a) (h : p ≤ b)
    (hd : a ∣ b) : ngx_align_ptr p a ≤ b := by
  obtain ⟨k, rfl⟩ := hd
  unfold ngx_align_ptr
  have h1 : (p + a - 1) / a ≤ k := by
    rw [Nat.div_le_iff_le_mul_add_pred ha]
    omega
  calc (p + a - 1) / a * a ≤ k * a := Nat.mul_le_mul_right a h1
    _ = a * k := Nat.mul_comm k a

theorem ngx_align_ptr_lt_add (p a : Nat) :
    ngx_align_ptr p a ≤ p + a - 1 := by
  unfold ngx_align_ptr
  exact Nat.div_mul_le_self (p + a - 1) a

theorem ngx_align_ptr_eq {p : Nat} (a : Nat) (ha : 0 < a) (hd : a ∣ p) :
    ngx_align_ptr p a = p :=
  Nat.le_antisymm (ngx_align_ptr_le a ha le_rfl hd) (ngx_align_ptr_ge p a ha)

theorem dvd_ngx_align_ptr (p a : Nat) : a ∣ ngx_align_ptr p a := by
  unfold ngx_align_ptr
  exact dvd_mul_left a _

theorem sizeT_sub_eq {a b : Nat} (h : b ≤ a) (h2 : a - b < MEMLIMIT) :
    sizeT_sub a b = a - b := by
  unfold sizeT_sub
  have e : (a : Int) - (b : Int) = ((a - b : Nat) : Int) := by omega
  rw [e, Int.emod_eq_of_lt (by positivity) (by exact_mod_cast h2)]
  simp

theorem sizeT_sub_add_self {s p : Nat} (hp : p < MEMLIMIT) :
    sizeT_sub (s + p) s = p := by
  rw [sizeT_sub_eq (Nat.le_add_right s p) (by omega)]
  omega

/-! ## Frame lemmas: the allocation paths do not touch unrelated state -/

theorem ngx_palloc_block_frame {pool : Pool} {s m : Nat} {pool' : Pool}
    (h : ngx_palloc_block pool s = some (m, pool')) :
    pool'.max = pool.max ∧ pool'.cleanup = pool.cleanup ∧
    pool'.large = pool.large ∧ pool'.mem = pool.mem := by
  simp only [ngx_palloc_block] at h
  split at h
  · exact absurd h (by simp)
  · split at h
    · exact absurd h (by simp)
    · cases h
      exact ⟨rfl, rfl, rfl, rfl⟩

theorem ngx_palloc_small_frame {pool : Pool} {s : Nat} {al : Bool} {m : Nat}
    {pool' : Pool} (h : ngx_palloc_small pool s al = some (m, pool')) :
    pool'.max = pool.max ∧ pool'.cleanup = pool.cleanup ∧
    pool'.large = pool.large ∧ pool'.mem = pool.mem := by
  unfold ngx_palloc_small at h
  split at h
  · cases h
    exact ⟨rfl, rfl, rfl, rfl⟩
  · exact ngx_palloc_block_frame h

theorem ngx_palloc_large_frame {pool : Pool} {s m : Nat} {pool' : Pool}
    (h : ngx_palloc_large pool s = some (m, pool')) :
    pool'.max = pool.max ∧ pool'.cleanup = pool.cleanup ∧
    pool'.mem = pool.mem := by
  simp only [ngx_palloc_large] at h
  split at h
  · exact absurd h (by simp)
  · rename_i pr heq
    split at h
    · cases h
      exact ⟨rfl, rfl, rfl⟩
    · split at h
      · split at h
        · exact absurd h (by simp)
        · rename_i pool2 hsmall
          cases h
          obtain ⟨h1, h2, _, h4⟩ := ngx_palloc_small_frame hsmall
          exact ⟨h1, h2, h4⟩
      · exact absurd h (by simp)

theorem ngx_palloc_frame {pool : Pool} {s m : Nat} {pool' : Pool}
    (h : ngx_palloc pool s = some (m, pool')) :
    pool'.max = pool.max ∧ pool'.cleanup = pool.cleanup ∧
    pool'.mem = pool.mem := by
  unfold ngx_palloc at h
  split at h
  · obtain ⟨h1, h2, _, h4⟩ := ngx_palloc_small_frame h
    exact ⟨h1, h2, h4⟩
  · exact ngx_palloc_large_frame h

/-! ## C8 — `ngx_pfree` on an untracked pointer -/

theorem pfreeChain_eq_none {p : Nat} {ls : List Nat} (h : p ∉ ls) :
    pfreeChain p ls = none := by
  induction ls with
  | nil => rfl
  | cons a t ih =>
    simp only [List.mem_cons, not_or] at h
    simp only [pfreeChain, if_neg h.1, ih h.2]

/-- C8: `ngx_pfree` on a pointer that equals no record's backing pointer in
the pool's large chain returns `NGX_DECLINED` and returns the pool with the
large chain, the cleanup chain and every block (in particular every cursor
`last`) unmodified. -/
theorem c8_pfree_untracked (pool : Pool) (q : Nat) (h : q ∉ pool.large) :
    ngx_pfree pool q = (NGX_DECLINED, pool) := by
  simp only [ngx_pfree, pfreeChain_eq_none h]

/-- Witness for C8 at a concrete pool and pointer. -/
theorem c8_pfree_untracked_witness :
    5 ∉ pool1024.large ∧ ngx_pfree pool1024 5 = (NGX_DECLINED, pool1024) :=
  ⟨by decide, c8_pfree_untracked pool1024 5 (by decide)⟩

/-! ## C5 — `ngx_reset_pool` and prior large pointers, cleanup untouched -/

theorem freeLarges_no_handler {ls : List Nat} {e : Event}
    (he : e ∈ freeLarges ls) : ∀ h d, e ≠ Event.callHandler h d := by
  induction ls with
  | nil => cases he
  | cons a t ih =>
    intro h d
    simp only [freeLarges] at he
    split at he
    · exact ih he h d
    · rcases List.mem_cons.mp he with h1 | h1
      · subst h1; simp
      · exact ih h1 h d

/-- C5: after `ngx_reset_pool`, `ngx_pfree` on any pointer — in particular
on every large pointer allocated before the reset — returns `NGX_DECLINED`
(the large chain was cleared), and reset invokes no cleanup handler: its
event trace contains only frees, and the cleanup chain is untouched. -/
theorem c5_reset_declines_and_no_cleanup (pool : Pool) (q : Nat) :
    (ngx_reset_pool pool).1.large = [] ∧
    ngx_pfree (ngx_reset_pool pool).1 q = (NGX_DECLINED, (ngx_reset_pool pool).1) ∧
    (∀ e ∈ (ngx_reset_pool pool).2, ∀ h d, e ≠ Event.callHandler h d) ∧
    (ngx_reset_pool pool).1.cleanup = pool.cleanup := by
  refine ⟨rfl, ?_, ?_, rfl⟩
  · simp only [ngx_pfree, ngx_reset_pool, pfreeChain]
  · intro e he
    exact freeLarges_no_handler he

/-! ## C2 — `ngx_destroy_pool` runs cleanups head-to-tail before freeing -/

theorem runCleanups_eq (cs : List CleanupRec) :
    runCleanups cs
      = cs.filterMap fun c => c.handler.map fun h => Event.callHandler h c.data := by
  induction cs with
  | nil => rfl
  | cons c t ih =>
    cases hc : c.handler with
    | none => simp [runCleanups, hc, ih, List.filterMap_cons]
    | some h => simp [runCleanups, hc, ih, List.filterMap_cons]

theorem freeBlocks_no_handler {bs : List BlockD} {e : Event}
    (he : e ∈ freeBlocks bs) : ∀ h d, e ≠ Event.callHandler h d := by
  induction bs with
  | nil => cases he
  | cons b t ih =>
    intro h d
    rcases List.mem_cons.mp he with h1 | h1
    · subst h1; simp
    · exact ih h1 h d

/-- C2: `ngx_destroy_pool` invokes the handler of every cleanup record that
has one exactly once, traversing the cleanup chain head to tail (the trace
begins with exactly the chain's handler/data pairs, in chain order), and
every free of a large buffer or block comes after all handler invocations;
`ngx_pool_cleanup_add` inserts the new record at the head of the chain, so
chain order is reverse-of-registration (LIFO). -/
theorem c2_destroy_runs_cleanups_first :
    (∀ pool : Pool,
       ngx_destroy_pool pool
         = (pool.cleanup.filterMap fun c => c.handler.map fun h =>
              Event.callHandler h c.data)
           ++ (freeLarges pool.large ++ freeBlocks pool.blocks) ∧
       ∀ e ∈ freeLarges pool.large ++ freeBlocks pool.blocks,
         ∀ h d, e ≠ Event.callHandler h d)
    ∧ (∀ (pool : Pool) (size : Nat) (pool' : Pool),
         ngx_pool_cleanup_add pool size = some pool' →
         ∃ d, pool'.cleanup = ⟨none, d⟩ :: pool.cleanup) := by
  constructor
  · intro pool
    constructor
    · simp only [ngx_destroy_pool, runCleanups_eq, List.append_assoc]
    · intro e he
      rcases List.mem_append.mp he with h1 | h1
      · exact freeLarges_no_handler h1
      · exact freeBlocks_no_handler h1
  · intro pool size pool' h
    unfold ngx_pool_cleanup_add at h
    split at h
    · exact absurd h (by simp)
    · rename_i pr heq
      obtain ⟨_, hcl, _⟩ := ngx_palloc_frame heq
      split at h
      · split at h
        · exact absurd h (by simp)
        · rename_i d pr2 heq2
          obtain ⟨_, hcl2, _⟩ := ngx_palloc_frame heq2
          injection h with h
          subst h
          exact ⟨d, by simp [hcl2, hcl]⟩
      · injection h with h
        subst h
        exact ⟨0, by simp [hcl]⟩

/-- Witness for C2's registration part at a concrete pool. -/
theorem c2_destroy_runs_cleanups_first_witness :
    ngx_pool_cleanup_add pool1024 0 = some c2added ∧
    ∃ d, c2added.cleanup = ⟨none, d⟩ :: pool1024.cleanup :=
  ⟨rfl, c2_destroy_runs_cleanups_first.2 pool1024 0 c2added rfl⟩

/-! ## C4 — what `ngx_reset_pool` does to the block cursors -/

theorem resetBlocks_eq_map (bs : List BlockD) :
    resetBlocks bs = bs.map fun b => { b with last := b.start + sizeof_ngx_pool_t } := by
  induction bs with
  | nil => rfl
  | cons b t ih => simp [resetBlocks, ih]

/-- C4 counterexample: in `grownPool128` the second block starts at 144 and
its data region starts at `ngx_align_ptr(144 + sizeof(ngx_pool_data_t),
NGX_ALIGNMENT) = 176`, but `ngx_reset_pool` sets its cursor to
`144 + sizeof(ngx_pool_t) = 224`, not to 176 — so after reset a fresh small
allocation cannot use the 48 bytes `[176, 224)` of that block's data
region. -/
theorem c4_counterexample :
    resetPool128.blocks.length = 2 ∧
    (resetPool128.blocks.map BlockD.last)[1]? = some 224 ∧
    ((resetPool128.blocks.map fun b =>
        ngx_align_ptr (b.start + sizeof_ngx_pool_data_t) NGX_ALIGNMENT)[1]?)
      = some 176 ∧
    (224 : Nat) ≠ 176 := by decide

/-- C4 amended: `ngx_reset_pool` sets every block's cursor `last` to
`start + sizeof(ngx_pool_t)` — the data-region start of the *first* block —
rather than to the start of that block's own data region; for non-first
blocks (whose data begins right after the smaller `ngx_pool_data_t`
header) the cursor overshoots the data-region start, so their full data
capacity is not recovered. -/
theorem c4_reset_sets_pool_header_offset (pool : Pool) :
    (ngx_reset_pool pool).1.blocks
      = pool.blocks.map fun b => { b with last := b.start + sizeof_ngx_pool_t } := by
  show resetBlocks pool.blocks = _
  exact resetBlocks_eq_map pool.blocks

/-! ## C6 — bounded reuse scan of the large chain -/

theorem largeScan_some_spec {p : Nat} :
    ∀ (ls : List Nat) (n : Nat), n ≤ 4 → ∀ ls', largeScan p ls n = some ls' →
      ∃ k, n + k ≤ 4 ∧ (∀ j, j < k → ∀ hj : j < ls.length, ls[j] ≠ 0) ∧
        ls[k]? = some 0 ∧ ls' = ls.set k p := by
  intro ls
  induction ls with
  | nil => intro n _ ls' h; exact absurd h (by simp [largeScan])
  | cons s rest ih =>
    intro n hn ls' h
    simp only [largeScan] at h
    split at h
    · rename_i hs
      injection h with h
      subst h hs
      exact ⟨0, by omega, by intro j hj hjl; exact absurd hj (by omega), by simp, by simp⟩
    · rename_i hs
      split at h
      · exact absurd h (by simp)
      · rename_i hn3
        split at h
        · rename_i rest' hrec
          injection h with h
          subst h
          obtain ⟨k, hk4, hocc, hzero, hset⟩ := ih (n + 1) (by omega) rest' hrec
          refine ⟨k + 1, by omega, ?_, by simpa using hzero, by simp [hset]⟩
          intro j hj hjlen
          match j with
          | 0 => simpa using hs
          | j + 1 =>
            have := hocc j (by omega) (by simpa using hjlen)
            simpa using this
        · exact absurd h (by simp)

theorem largeScan_none_spec {p : Nat} :
    ∀ (ls : List Nat) (n : Nat), largeScan p ls n = none →
      ∀ j, ∀ hj : j < ls.length, n + j ≤ 4 → ls[j] ≠ 0 := by
  intro ls
  induction ls with
  | nil => intro n _ j hj; simp at hj
  | cons s rest ih =>
    intro n h j hj hj4
    simp only [largeScan] at h
    split at h
    · exact absurd h (by simp)
    · rename_i hs
      split at h
      · rename_i hn3
        match j with
        | 0 => simpa using hs
        | j + 1 => omega
      · rename_i hn3
        split at h
        · exact absurd h (by simp)
        · rename_i hrec
          match j with
          | 0 => simpa using hs
          | j + 1 =>
            have := ih (n + 1) hrec j (by simpa using hj) (by omega)
            simpa using this

/-- C6 counterexample: in `c6mid` the large chain has four occupied records
followed by a freed record in the *fifth* position; the claim then demands
a new record inserted at the head, but the code reuses the fifth record
(the bound check `if (n++ > 3) break` runs only after a record's `alloc`
has already been examined, so five records are examined, not four). -/
theorem c6_counterexample :
    (∀ a ∈ c6mid.large.take 4, a ≠ 0) ∧
    c6mid.large[4]? = some 0 ∧
    c6run = some (c6ptr, c6final) ∧
    c6ptr ≠ 0 ∧
    c6final.large.length = 5 ∧
    c6final.large[0]? ≠ some c6ptr ∧
    c6final.large[4]? = some c6ptr :=
  ⟨by decide, by decide, rfl, by decide, by decide, by decide, by decide⟩

/-- C6 amended: when registering a large allocation the pool scans the
large chain from the head for the first record whose backing reference is
empty, examining at most **5** records (the bound counter is checked only
after a record has been examined); if an empty record is among the first 5
scanned, it is reused (its backing set to the new buffer) instead of
bump-allocating a new record, otherwise a new record is inserted at the
head of the chain. -/
theorem c6_large_reuse_bounded (pool : Pool) (size p : Nat) (pool' : Pool)
    (h : ngx_palloc_large pool size = some (p, pool')) :
    (∃ k, k ≤ 4 ∧ (∀ j, j < k → ∀ hj : j < pool.large.length, pool.large[j] ≠ 0) ∧
       pool.large[k]? = some 0 ∧ pool'.large = pool.large.set k p)
    ∨ ((∀ j, ∀ hj : j < pool.large.length, j ≤ 4 → pool.large[j] ≠ 0) ∧
       pool'.large = p :: pool.large) := by
  simp only [ngx_palloc_large] at h
  split at h
  · exact absurd h (by simp)
  · rename_i q fr heq
    split at h
    · rename_i large' hscan
      simp only [Option.some_inj, Prod.mk.injEq] at h
      obtain ⟨h1, h2⟩ := h
      subst h1
      obtain ⟨k, hk, hocc, hzero, hset⟩ :=
        largeScan_some_spec pool.large 0 (by omega) large' hscan
      exact Or.inl ⟨k, by omega, hocc, hzero, by rw [← h2, ← hset]⟩
    · rename_i hscan
      split at h
      · split at h
        · exact absurd h (by simp)
        · rename_i pool2 hsmall
          simp only [Option.some_inj, Prod.mk.injEq] at h
          obtain ⟨h1, h2⟩ := h
          subst h1
          obtain ⟨_, _, hlg, _⟩ := ngx_palloc_small_frame hsmall
          refine Or.inr ⟨?_, by rw [← h2]; simp [hlg]⟩
          intro j hj hj4
          exact largeScan_none_spec pool.large 0 hscan j hj (by omega)
      · exact absurd h (by simp)

/-- Witness for C6's amended theorem at the concrete scenario `c6mid`. -/
theorem c6_large_reuse_bounded_witness :
    ngx_palloc_large c6mid 5000 = some (c6ptr, c6final) ∧
    ((∃ k, k ≤ 4 ∧ (∀ j, j < k → ∀ hj : j < c6mid.large.length, c6mid.large[j] ≠ 0) ∧
        c6mid.large[k]? = some 0 ∧ c6final.large = c6mid.large.set k c6ptr)
     ∨ ((∀ j, ∀ hj : j < c6mid.large.length, j ≤ 4 → c6mid.large[j] ≠ 0) ∧
        c6final.large = c6ptr :: c6mid.large)) :=
  ⟨rfl, c6_large_reuse_bounded c6mid 5000 c6ptr c6final rfl⟩

/-! ## C7 — the failure-counter walk of `ngx_palloc_block` -/

theorem failWalk_fst_length : ∀ bs : List BlockD, (failWalk bs).1.length = bs.length
  | [] => rfl
  | [_] => rfl
  | _ :: b' :: bs => by
    simp only [failWalk, List.length_cons]
    rw [failWalk_fst_length (b' :: bs)]
    rfl

theorem failWalk_fst_getElem_lt :
    ∀ (bs : List BlockD) (j : Nat), j + 1 < bs.length →
      (failWalk bs).1[j]? = (bs[j]?).map fun b => { b with failed := b.failed + 1 }
  | [], j, h => by simp at h
  | [_], j, h => by simp at h
  | b :: b' :: bs, 0, h => by simp [failWalk]
  | b :: b' :: bs, j + 1, h => by
    have ih := failWalk_fst_getElem_lt (b' :: bs) j (by simpa using h)
    simpa [failWalk] using ih

theorem failWalk_fst_getElem_last :
    ∀ (bs : List BlockD) (j : Nat), j + 1 = bs.length → (failWalk bs).1[j]? = bs[j]?
  | [], j, h => by simp at h
  | [b], 0, _ => rfl
  | [b], j + 1, h => by simp at h
  | b :: b' :: bs, 0, h => by simp at h
  | b :: b' :: bs, j + 1, h => by
    have ih := failWalk_fst_getElem_last (b' :: bs) j (by simpa using h)
    simpa [failWalk] using ih

theorem failWalk_snd_none :
    ∀ bs : List BlockD, (failWalk bs).2 = none ↔
      ∀ j x, j + 1 < bs.length → bs[j]? = some x → x.failed ≤ 4
  | [] => by simp [failWalk]
  | [b] => by simp [failWalk]
  | b :: b' :: bs => by
    have ih := failWalk_snd_none (b' :: bs)
    simp only [failWalk]
    constructor
    · intro h j x hj1 hjx
      cases hr : (failWalk (b' :: bs)).2 with
      | some c => simp [hr] at h
      | none =>
        simp only [hr] at h
        have hb : ¬ 4 < b.failed := by
          by_contra hb
          simp [if_pos hb] at h
        match j with
        | 0 =>
          simp only [List.getElem?_cons_zero, Option.some_inj] at hjx
          subst hjx
          omega
        | j + 1 =>
          simp only [List.getElem?_cons_succ] at hjx
          exact (ih.mp hr) j x (by simpa using hj1) hjx
    · intro h
      have hb : b.failed ≤ 4 := h 0 b (by simp) (by simp)
      have hrest : (failWalk (b' :: bs)).2 = none := by
        rw [ih]
        intro j x hj1 hjx
        exact h (j + 1) x (by simpa using hj1) (by simpa using hjx)
      rw [hrest]
      simp [Nat.not_lt.mpr hb]

theorem failWalk_snd_some :
    ∀ (bs : List BlockD) (c : Nat), (failWalk bs).2 = some c →
      ∃ j x, c = j + 1 ∧ j + 1 < bs.length ∧ bs[j]? = some x ∧ 4 < x.failed ∧
        ∀ j' x', j < j' → j' + 1 < bs.length → bs[j']? = some x' → x'.failed ≤ 4
  | [], c, h => by simp [failWalk] at h
  | [b], c, h => by simp [failWalk] at h
  | b :: b' :: bs, c, h => by
    simp only [failWalk] at h
    cases hr : (failWalk (b' :: bs)).2 with
    | some d =>
      simp only [hr, Option.some_inj] at h
      obtain ⟨j, x, hc, hj1, hjx, hgt, hmax⟩ := failWalk_snd_some (b' :: bs) d hr
      refine ⟨j + 1, x, by omega, by simpa using hj1, by simpa using hjx, hgt, ?_⟩
      intro j' x' hlt hj1' hjx'
      match j', hlt with
      | j'' + 1, hlt =>
        exact hmax j'' x' (by omega) (by simpa using hj1') (by simpa using hjx')
    | none =>
      simp only [hr] at h
      split at h
      · rename_i hb
        simp only [Option.some_inj] at h
        refine ⟨0, b, by omega, by simp, by simp, hb, ?_⟩
        intro j' x' hlt hj1' hjx'
        match j', hlt with
        | j'' + 1, _ =>
          exact (failWalk_snd_none (b' :: bs)).mp hr j'' x' (by simpa using hj1')
            (by simpa using hjx')
      · simp at h

/-- C7 counterexample: growing `fullPool128` (one block, at `current`, with
failure counter 0).  The walk sets no skip-to candidate, so by the claim the
pool's `current` should become the newly created block (index 1); the code
instead leaves `current` at the old block (index 0) — the `current ?
current : new` fallback is unreachable because the walk's running `current`
pointer starts non-null.  (The lone visited block, being the tail, also
keeps its counter at 0.) -/
theorem c7_counterexample :
    fullPool128.blocks.length = 1 ∧
    fullPool128.current = 0 ∧
    (fullPool128.blocks.map BlockD.failed)[0]? = some 0 ∧
    (c7blockRes.2).blocks.length = 2 ∧
    (c7blockRes.2).current = 0 ∧
    ((c7blockRes.2).blocks.map BlockD.failed)[0]? = some 0 := by decide

/-- C7 amended: during block growth the chain is walked from `current`
towards the tail; every visited block that has a successor gets its failure
counter incremented, while the tail block's counter (and the new block's,
which starts at 0) is unchanged; the skip-to candidate is advanced past a
visited block exactly when that block's counter *before* the increment
exceeds 4; after the walk, `current` is set to the skip-to candidate if one
was set, and otherwise stays at the previous `current` block — it is never
set to the newly created block. -/
theorem c7_block_growth (pool : Pool) (size m : Nat) (pool' : Pool)
    (hcur : pool.current < pool.blocks.length)
    (h : ngx_palloc_block pool size = some (m, pool')) :
    pool'.blocks.length = pool.blocks.length + 1 ∧
    (∀ j, j < pool.current → pool'.blocks[j]? = pool.blocks[j]?) ∧
    (∀ j, pool.current ≤ j → j + 1 < pool.blocks.length →
       pool'.blocks[j]? = (pool.blocks[j]?).map fun b => { b with failed := b.failed + 1 }) ∧
    ((pool'.blocks[pool.blocks.length - 1]?).map BlockD.failed
       = (pool.blocks[pool.blocks.length - 1]?).map BlockD.failed) ∧
    (pool'.blocks[pool.blocks.length]?).map BlockD.failed = some 0 ∧
    pool'.current < pool.blocks.length ∧
    ((∀ j x, pool.current ≤ j → j + 1 < pool.blocks.length →
        pool.blocks[j]? = some x → x.failed ≤ 4) →
      pool'.current = pool.current) ∧
    (∀ j x, pool.current ≤ j → j + 1 < pool.blocks.length →
       pool.blocks[j]? = some x → 4 < x.failed →
       (∀ j' x', j < j' → j' + 1 < pool.blocks.length →
          pool.blocks[j']? = some x' → x'.failed ≤ 4) →
       pool'.current = j + 1) := by
  simp only [ngx_palloc_block] at h
  split at h
  · rename_i hnil
    rw [hnil] at hcur
    simp at hcur
  · rename_i b0 bs0 hb0
    split at h
    · exact absurd h (by simp)
    · rename_i mb fr hmal
      simp only [Option.some_inj, Prod.mk.injEq] at h
      obtain ⟨h1, h2⟩ := h
      set cur := pool.current with hcurdef
      set L := pool.blocks.length with hLdef
      have hdropLen : (pool.blocks.drop cur).length = L - cur := by simp
      have hwLen : (failWalk (pool.blocks.drop cur)).1.length = L - cur := by
        rw [failWalk_fst_length]; exact hdropLen
      have htakeLen : (pool.blocks.take cur).length = cur := by
        simp [Nat.le_of_lt hcur]
      have hblocks : pool'.blocks
          = pool.blocks.take cur ++ ((failWalk (pool.blocks.drop cur)).1
            ++ [⟨mb, ngx_align_ptr (mb + sizeof_ngx_pool_data_t) NGX_ALIGNMENT + size,
                 mb + sizeT_sub b0.end_ b0.start, 0⟩]) := by
        rw [← h2, List.append_assoc]
      have hcur' : pool'.current = cur + ((failWalk (pool.blocks.drop cur)).2.getD 0) := by
        rw [← h2]
      refine ⟨?_, ?_, ?_, ?_, ?_, ?_, ?_, ?_⟩
      · rw [hblocks]
        simp [htakeLen, hwLen]
        omega
      · intro j hj
        rw [hblocks, List.getElem?_append_left (by omega),
          List.getElem?_take_of_lt hj]
      · intro j hjc hj1
        rw [hblocks, List.getElem?_append_right (by omega),
          List.getElem?_append_left (by omega), htakeLen,
          failWalk_fst_getElem_lt _ (j - cur) (by omega),
          List.getElem?_drop]
        have he : cur + (j - cur) = j := by omega
        rw [he]
      · rw [hblocks, List.getElem?_append_right (by omega),
          List.getElem?_append_left (by omega), htakeLen,
          failWalk_fst_getElem_last _ (L - 1 - cur) (by omega),
          List.getElem?_drop]
        have he : cur + (L - 1 - cur) = L - 1 := by omega
        rw [he]
      · rw [hblocks, List.getElem?_append_right (by omega),
          List.getElem?_append_right (by omega), htakeLen, hwLen]
        have h0 : L - cur - (L - cur) = 0 := by omega
        rw [h0]
        rfl
      · rw [hcur']
        cases hr : (failWalk (pool.blocks.drop cur)).2 with
        | none => simpa using hcur
        | some c =>
          obtain ⟨j, x, hc, hj1, _, _, _⟩ := failWalk_snd_some _ c hr
          rw [hdropLen] at hj1
          simp only [Option.getD_some]
          omega
      · intro hall
        rw [hcur']
        cases hr : (failWalk (pool.blocks.drop cur)).2 with
        | none => simp
        | some c =>
          obtain ⟨j, x, hc, hj1, hjx, hgt, _⟩ := failWalk_snd_some _ c hr
          rw [List.getElem?_drop] at hjx
          rw [hdropLen] at hj1
          have := hall (cur + j) x (by omega) (by omega) hjx
          omega
      · intro j x hjc hj1 hjx hgt hmaxabs
        rw [hcur']
        cases hr : (failWalk (pool.blocks.drop cur)).2 with
        | none =>
          have := (failWalk_snd_none _).mp hr (j - cur) x
            (by rw [hdropLen]; omega)
            (by rw [List.getElem?_drop]; rw [show cur + (j - cur) = j by omega]; exact hjx)
          omega
        | some c =>
          obtain ⟨j0, x0, hc, hj01, hj0x, hgt0, hmax0⟩ := failWalk_snd_some _ c hr
          rw [List.getElem?_drop] at hj0x
          rw [hdropLen] at hj01
          have hj0eq : j0 = j - cur := by
            rcases Nat.lt_trichotomy j0 (j - cur) with hlt | heq | hgt'
            · have := hmax0 (j - cur) x hlt (by omega)
                (by rw [List.getElem?_drop]; rw [show cur + (j - cur) = j by omega]; exact hjx)
              omega
            · exact heq
            · have := hmaxabs (cur + j0) x0 (by omega) (by omega) hj0x
              omega
          simp only [Option.getD_some]
          omega

/-- Witness for C7's amended theorem: one growth step on `fullPool128`. -/
theorem c7_block_growth_witness :
    fullPool128.current < fullPool128.blocks.length ∧
    ngx_palloc_block fullPool128 48 = some (c7blockRes.1, c7blockRes.2) ∧
    c7blockRes.2.current < fullPool128.blocks.length :=
  ⟨by decide, rfl,
    (c7_block_growth fullPool128 48 c7blockRes.1 c7blockRes.2 (by decide) rfl).2.2.2.2.2.1⟩

/-! ## C3 — the `max` threshold between bump and large allocation -/

theorem ngx_create_pool_eq (size : Nat) (h : 16 + size ≤ MEMLIMIT) :
    ngx_create_pool size
      = some { blocks := [⟨16, 16 + sizeof_ngx_pool_t, 16 + size, 0⟩],
               current := 0,
               max := min (sizeT_sub size sizeof_ngx_pool_t) NGX_MAX_ALLOC_FROM_POOL,
               large := [], cleanup := [], fresh := 16 + size,
               mem := fun _ => 0 } := by
  have h16 : ngx_align_ptr NGX_POOL_ALIGNMENT NGX_POOL_ALIGNMENT = 16 := by decide
  simp only [ngx_create_pool, ngx_memalign, h16]
  rw [if_pos h]

theorem ngx_palloc_small_one (pool : Pool) (sz : Nat) (al : Bool) (m : Nat)
    (b : BlockD) (hb : pool.blocks = [b]) (hcur : pool.current = 0)
    (hm : m = if al then ngx_align_ptr b.last NGX_ALIGNMENT else b.last)
    (hcond : sz ≤ sizeT_sub b.end_ m) :
    ngx_palloc_small pool sz al
      = some (m, { pool with blocks := [{ b with last := m + sz }] }) := by
  unfold ngx_palloc_small
  rw [hcur, hb]
  simp only [List.drop_zero, List.take_zero, tryAlloc, ← hm]
  rw [if_pos hcond]
  simp

/-- C3: for every pool created with `ngx_create_pool(size)` (well-formed:
`96 ≤ size`, 8-aligned, below 2^32), `max` equals `min(size -
sizeof(ngx_pool_t), NGX_MAX_ALLOC_FROM_POOL)`; an `ngx_palloc` request of
size exactly `max` is served from the block chain (the returned region lies
inside a block and the large chain stays empty), while a request of size
`max + 1` is served as a large allocation via the raw allocator (the
returned pointer is registered in the large chain and lies beyond every
block). -/
theorem c3_max_threshold (size : Nat) (h96 : 96 ≤ size) (h8 : 8 ∣ size)
    (h32 : size ≤ 2 ^ 32) :
    ∃ pool, ngx_create_pool size = some pool ∧
      pool.max = min (size - sizeof_ngx_pool_t) NGX_MAX_ALLOC_FROM_POOL ∧
      (∃ m pool', ngx_palloc pool pool.max = some (m, pool') ∧
        pool'.large = [] ∧
        ∃ b ∈ pool'.blocks, b.start ≤ m ∧ m + pool.max ≤ b.end_) ∧
      (∃ q pool'', ngx_palloc pool (pool.max + 1) = some (q, pool'') ∧
        pool''.large = [q] ∧ ∀ b ∈ pool''.blocks, b.end_ ≤ q) := by
  have hml : 16 + size ≤ MEMLIMIT := by unfold MEMLIMIT; omega
  have hsub : sizeT_sub size sizeof_ngx_pool_t = size - 80 := by
    show sizeT_sub size 80 = size - 80
    exact sizeT_sub_eq (by omega) (by unfold MEMLIMIT; omega)
  have hfit : sizeT_sub (16 + size) 96 = size - 80 := by
    rw [sizeT_sub_eq (by omega) (by unfold MEMLIMIT; omega)]
    omega
  have hMle : min (size - 80) 4095 ≤ size - 80 := Nat.min_le_left _ _
  have hMhi : min (size - 80) 4095 ≤ 4095 := Nat.min_le_right _ _
  have hM16 : 16 ≤ min (size - 80) 4095 := by omega
  have hMEMbig : 2 ^ 32 + 4128 ≤ MEMLIMIT := by unfold MEMLIMIT; norm_num
  set P : Pool :=
    { blocks := [⟨16, 16 + sizeof_ngx_pool_t, 16 + size, 0⟩], current := 0,
      max := min (sizeT_sub size sizeof_ngx_pool_t) NGX_MAX_ALLOC_FROM_POOL,
      large := [], cleanup := [], fresh := 16 + size,
      mem := fun _ => 0 } with hP
  have hPmax : P.max = min (size - 80) 4095 := by
    rw [hP]
    show min (sizeT_sub size sizeof_ngx_pool_t) NGX_MAX_ALLOC_FROM_POOL
      = min (size - 80) 4095
    rw [hsub]
    rfl
  have ha96 : ngx_align_ptr (16 + sizeof_ngx_pool_t) NGX_ALIGNMENT = 96 := by decide
  refine ⟨P, ngx_create_pool_eq size hml, by rw [hPmax]; rfl, ?_, ?_⟩
  · -- request of exactly `max`: served by the first block
    have hcond1 : P.max ≤ sizeT_sub (16 + size) 96 := by
      rw [hfit, hPmax]
      exact hMle
    have hsm := ngx_palloc_small_one P P.max true 96
      ⟨16, 16 + sizeof_ngx_pool_t, 16 + size, 0⟩ (by rw [hP]) (by rw [hP])
      (by simp [ha96]) hcond1
    refine ⟨96, { P with blocks := [⟨16, 96 + P.max, 16 + size, 0⟩] }, ?_, ?_, ?_⟩
    · rw [ngx_palloc, if_pos le_rfl]
      exact hsm
    · rw [hP]
    · refine ⟨_, List.mem_cons_self _ _, by norm_num, ?_⟩
      show 96 + P.max ≤ 16 + size
      rw [hPmax]
      omega
  · -- request of `max + 1`: served as a large allocation
    have hqge : 16 + size ≤ ngx_align_ptr (16 + size) NGX_POOL_ALIGNMENT :=
      ngx_align_ptr_ge _ _ (by decide)
    have hqle : ngx_align_ptr (16 + size) NGX_POOL_ALIGNMENT ≤ 16 + size + 15 := by
      have h1 := ngx_align_ptr_lt_add (16 + size) NGX_POOL_ALIGNMENT
      have hA : NGX_POOL_ALIGNMENT = 16 := rfl
      omega
    have halloc : ngx_alloc (P.max + 1) P.fresh
        = some (ngx_align_ptr (16 + size) NGX_POOL_ALIGNMENT,
            ngx_align_ptr (16 + size) NGX_POOL_ALIGNMENT + (P.max + 1)) := by
      have hfr : P.fresh = 16 + size := by rw [hP]
      unfold ngx_alloc ngx_memalign
      rw [hfr]
      rw [if_pos (by rw [hPmax]; omega)]
    have hcond2 : sizeof_ngx_pool_large_t ≤ sizeT_sub (16 + size) 96 := by
      rw [hfit]
      show (16 : Nat) ≤ size - 80
      omega
    have hsm := ngx_palloc_small_one
      { P with fresh := ngx_align_ptr (16 + size) NGX_POOL_ALIGNMENT + (P.max + 1) }
      sizeof_ngx_pool_large_t true 96
      ⟨16, 16 + sizeof_ngx_pool_t, 16 + size, 0⟩ (by rw [hP]) (by rw [hP])
      (by simp [ha96]) hcond2
    refine ⟨ngx_align_ptr (16 + size) NGX_POOL_ALIGNMENT,
      { P with
          blocks := [⟨16, 96 + sizeof_ngx_pool_large_t, 16 + size, 0⟩],
          large := [ngx_align_ptr (16 + size) NGX_POOL_ALIGNMENT],
          fresh := ngx_align_ptr (16 + size) NGX_POOL_ALIGNMENT + (P.max + 1) },
      ?_, rfl, ?_⟩
    · rw [ngx_palloc, if_neg (by omega)]
      simp only [ngx_palloc_large, halloc]
      have hscan : largeScan (ngx_align_ptr (16 + size) NGX_POOL_ALIGNMENT)
          P.large 0 = none := by rw [hP]; rfl
      simp only [hscan]
      have hle2 : sizeof_ngx_pool_large_t ≤ P.max := by rw [hPmax]; exact hM16
      rw [if_pos hle2]
      simp only [hsm]
    · intro b hb
      rcases List.mem_singleton.mp hb with rfl
      show 16 + size ≤ ngx_align_ptr (16 + size) NGX_POOL_ALIGNMENT
      exact hqge

/-- Witness for C3 at `size = 1024`. -/
theorem c3_max_threshold_witness :
    96 ≤ 1024 ∧ (8 : Nat) ∣ 1024 ∧ 1024 ≤ 2 ^ 32 ∧
    (∃ pool, ngx_create_pool 1024 = some pool ∧
      pool.max = min (1024 - sizeof_ngx_pool_t) NGX_MAX_ALLOC_FROM_POOL ∧
      (∃ m pool', ngx_palloc pool pool.max = some (m, pool') ∧
        pool'.large = [] ∧
        ∃ b ∈ pool'.blocks, b.start ≤ m ∧ m + pool.max ≤ b.end_) ∧
      (∃ q pool'', ngx_palloc pool (pool.max + 1) = some (q, pool'') ∧
        pool''.large = [q] ∧ ∀ b ∈ pool''.blocks, b.end_ ≤ q)) :=
  ⟨by norm_num, by norm_num, by norm_num,
    c3_max_threshold 1024 (by norm_num) (by norm_num) (by norm_num)⟩

/-! ## C9 — `ngx_array_push` growth at capacity 2, element size 4 -/

theorem ngx_memcpy_read (m : Nat → Nat) (dst src : Nat) :
    ∀ n i, i < n → ngx_memcpy m dst src n (dst + i) = m (src + i) := by
  intro n
  induction n with
  | zero => intro i hi; omega
  | succ k ih =>
    intro i hi
    simp only [ngx_memcpy, memWrite]
    rcases Nat.lt_or_ge i k with hik | hik
    · rw [if_neg (by omega), ih i hik]
    · have hik' : i = k := by omega
      subst hik'
      rw [if_pos rfl]

/-- C9: starting from an array with `nalloc = 2`, `size = 4`, `nelts = 0`,
three successive successful `ngx_array_push` calls end with `nelts = 3`;
the third call triggers growth: writing `b0` for the pool's first block at
that moment, if the array's buffer end equals the pool's bump cursor
(`elts + 8 = b0.last`) and the block has room for one more element
(`b0.last + 4 ≤ b0.end_`), the capacity is extended in place by one
(buffer unchanged, `nalloc = 3`, cursor advanced by 4); otherwise a fresh
buffer of double the old byte size (16 bytes) is bump-allocated, the first
two elements (8 bytes) are copied verbatim into it, and `nalloc = 4`. -/
theorem c9_array_push_growth (pool0 : Pool) (a0 : NgxArray)
    (hn : a0.nalloc = 2) (hs : a0.size = 4) (h0 : a0.nelts = 0)
    (p1 p2 p3 : Nat) (a1 a2 a3 : NgxArray) (pool1 pool2 pool3 : Pool)
    (e1 : ngx_array_push a0 pool0 = some (p1, a1, pool1))
    (e2 : ngx_array_push a1 pool1 = some (p2, a2, pool2))
    (e3 : ngx_array_push a2 pool2 = some (p3, a3, pool3)) :
    a3.nelts = 3 ∧
    ∀ b0 bs, pool2.blocks = b0 :: bs →
      ((a2.elts + 8 = b0.last ∧ b0.last + 4 ≤ b0.end_) →
         a3.elts = a2.elts ∧ a3.nalloc = 3 ∧ p3 = a2.elts + 8 ∧
         pool3.blocks = { b0 with last := b0.last + 4 } :: bs ∧
         pool3.mem = pool2.mem) ∧
      (¬(a2.elts + 8 = b0.last ∧ b0.last + 4 ≤ b0.end_) →
         a3.nalloc = 4 ∧ p3 = a3.elts + 8 ∧
         (∃ pool2', ngx_palloc pool2 16 = some (a3.elts, pool2')) ∧
         ∀ i, i < 8 → pool3.mem (a3.elts + i) = pool2.mem (a2.elts + i)) := by
  -- first push: no growth
  rw [ngx_array_push, if_neg (by omega)] at e1
  simp only [Option.some_inj, Prod.mk.injEq] at e1
  obtain ⟨hp1, ha1, hq1⟩ := e1
  -- second push: no growth
  rw [ngx_array_push, if_neg (by rw [← ha1]; simp; omega)] at e2
  simp only [Option.some_inj, Prod.mk.injEq] at e2
  obtain ⟨hp2, ha2, hq2⟩ := e2
  have ha2' : a2 = { a0 with nelts := 2 } := by
    rw [← ha2, ← ha1]
    simp [h0]
  have hn2 : a2.nelts = 2 := by rw [ha2']
  have hnal2 : a2.nalloc = 2 := by rw [ha2']; exact hn
  have hsz2 : a2.size = 4 := by rw [ha2']; exact hs
  -- third push: growth
  rw [ngx_array_push, if_pos (by omega)] at e3
  rcases hbl : pool2.blocks with _ | ⟨B, BS⟩
  · rw [hbl] at e3
    exact absurd e3 (by simp)
  · simp only [hbl] at e3
    rw [hsz2, hnal2] at e3
    by_cases hc : a2.elts + 4 * 2 = B.last ∧ B.last + 4 ≤ B.end_
    · -- in-place extension
      rw [if_pos hc] at e3
      simp only [Option.some_inj, Prod.mk.injEq] at e3
      obtain ⟨hp3, ha3, hq3⟩ := e3
      refine ⟨by rw [← ha3]; simp [hn2], ?_⟩
      intro b0 bs hbl2
      injection hbl2 with hB hBS
      subst hB hBS
      constructor
      · intro _
        refine ⟨by rw [← ha3], by rw [← ha3], ?_, ?_, by rw [← hq3]⟩
        · rw [← hp3, hn2]
        · rw [← hq3]
      · intro hcond
        exact absurd ⟨by omega, hc.2⟩ hcond
    · -- fresh doubled buffer
      rw [if_neg hc] at e3
      split at e3
      · exact absurd e3 (by simp)
      · rename_i newp pool2' hnew
        simp only [Option.some_inj, Prod.mk.injEq] at e3
        obtain ⟨hp3, ha3, hq3⟩ := e3
        refine ⟨by rw [← ha3]; simp [hn2], ?_⟩
        intro b0 bs hbl2
        injection hbl2 with hB hBS
        subst hB hBS
        constructor
        · intro hcond
          exact absurd ⟨by omega, hcond.2⟩ hc
        · intro _
          have helts3 : a3.elts = newp := by rw [← ha3]
          refine ⟨by rw [← ha3], ?_, ?_, ?_⟩
          · rw [← hp3, helts3, hn2]
          · exact ⟨pool2', by rw [helts3]; exact hnew⟩
          · intro i hi
            obtain ⟨_, _, hmm⟩ := ngx_palloc_frame hnew
            rw [helts3, ← hq3]
            show ngx_memcpy pool2'.mem newp a2.elts (4 * 2) (newp + i)
              = pool2.mem (a2.elts + i)
            rw [ngx_memcpy_read pool2'.mem newp a2.elts (4 * 2) i (by omega), hmm]

/-- Witness for C9: three pushes on a concrete array over `c9pool`
(the third extends in place). -/
theorem c9_array_push_growth_witness :
    c9a0.nalloc = 2 ∧ c9a0.size = 4 ∧ c9a0.nelts = 0 ∧
    ngx_array_push c9a0 c9pool = some (c9r1.1, c9r1.2.1, c9r1.2.2) ∧
    c9r3.2.1.nelts = 3 :=
  ⟨rfl, rfl, rfl, rfl,
    (c9_array_push_growth c9pool c9a0 rfl rfl rfl
      c9r1.1 c9r2.1 c9r3.1 c9r1.2.1 c9r2.2.1 c9r3.2.1
      c9r1.2.2 c9r2.2.2 c9r3.2.2 rfl rfl rfl).1⟩

/-! ## C10 — `ngx_list_push` part counts -/

/-- C10: on a fresh 1024-byte pool, a list with part capacity 2 and element
size 4 reaches, after five successful pushes, exactly three parts with
counts `[2, 2, 1]` in traversal order (5 elements in total); and in
general, for a list with positive part capacity satisfying the part
invariant, `ngx_list_push` preserves it: every part except possibly the
last has `count = capacity`, and no part exceeds its capacity. -/
theorem c10_list_push_parts :
    ((c10run.map fun r => r.1.parts.map NgxListPart.nelts) = some [2, 2, 1]) ∧
    ((c10run.map fun r => (r.1.parts.map NgxListPart.nelts).sum) = some 5) ∧
    (∀ (l : NgxList) (pool : Pool) (e : Nat) (l' : NgxList) (pool' : Pool),
       1 ≤ l.nalloc → ListInv l →
       ngx_list_push l pool = some (e, l', pool') → ListInv l') := by
  refine ⟨by decide, by decide, ?_⟩
  intro l pool e l' pool' hn hinv h
  rw [ngx_list_push] at h
  split at h
  · exact absurd h (by simp)
  · rename_i last hlast
    have hdec : l.parts.dropLast ++ [last] = l.parts :=
      List.dropLast_append_getLast? last hlast
    split at h
    · -- last part full: a new part is linked at the tail
      rename_i hfull
      split at h
      · exact absurd h (by simp)
      · rename_i pr1 hal1
        split at h
        · exact absurd h (by simp)
        · rename_i e2 pool2 hal2
          simp only [Option.some_inj, Prod.mk.injEq] at h
          obtain ⟨he, hl, hp⟩ := h
          constructor
          · intro p hp2
            rw [← hl] at hp2
            simp only [List.dropLast_concat] at hp2
            rw [← hl]
            show p.nelts = l.nalloc
            rw [← hdec] at hp2
            rcases List.mem_append.mp hp2 with h1 | h1
            · exact hinv.1 p h1
            · rw [List.mem_singleton.mp h1]
              exact hfull
          · intro p hp2
            rw [← hl] at hp2 ⊢
            show p.nelts ≤ l.nalloc
            rcases List.mem_append.mp hp2 with h1 | h1
            · exact hinv.2 p h1
            · rw [List.mem_singleton.mp h1]
              exact hn
    · -- room in the last part
      rename_i hfull
      simp only [Option.some_inj, Prod.mk.injEq] at h
      obtain ⟨he, hl, hp⟩ := h
      have hlastle : last.nelts ≤ l.nalloc :=
        hinv.2 last (List.mem_of_getLast?_eq_some hlast)
      constructor
      · intro p hp2
        rw [← hl] at hp2
        simp only [List.dropLast_concat] at hp2
        rw [← hl]
        show p.nelts = l.nalloc
        exact hinv.1 p hp2
      · intro p hp2
        rw [← hl] at hp2 ⊢
        show p.nelts ≤ l.nalloc
        rcases List.mem_append.mp hp2 with h1 | h1
        · exact hinv.2 p (List.dropLast_sublist l.parts |>.subset h1)
        · rw [List.mem_singleton.mp h1]
          show last.nelts + 1 ≤ l.nalloc
          omega

/-- Witness for C10's invariant-preservation part at a concrete list. -/
theorem c10_list_push_parts_witness :
    1 ≤ c10wlist.nalloc ∧ ListInv c10wlist ∧
    ngx_list_push c10wlist pool1024 = some (c10wres.1, c10wres.2.1, c10wres.2.2) ∧
    ListInv c10wres.2.1 :=
  ⟨by decide, ⟨by decide, by decide⟩, rfl,
    c10_list_push_parts.2.2 c10wlist pool1024 c10wres.1 c10wres.2.1 c10wres.2.2
      (by decide) ⟨by decide, by decide⟩ rfl⟩

/-! ## C1 — pairwise disjointness of bump-allocated regions -/

theorem take_append_set {α : Type} (l : List α) :
    ∀ (n i : Nat) (v : α), l.take n ++ (l.drop n).set i v = l.set (n + i) v := by
  induction l with
  | nil => intro n i v; simp
  | cons a t ih =>
    intro n i v
    cases n with
    | zero => simp
    | succ n =>
      rw [show n + 1 + i = (n + i) + 1 by omega]
      simp only [List.take_succ_cons, List.drop_succ_cons, List.set_cons_succ,
        List.cons_append]
      rw [ih]

theorem ngx_memalign_spec {al sz fresh p fresh' : Nat} (hal : 0 < al)
    (h : ngx_memalign al sz fresh = some (p, fresh')) :
    fresh ≤ p ∧ al ∣ p ∧ fresh' = p + sz ∧ p + sz ≤ MEMLIMIT := by
  simp only [ngx_memalign] at h
  split at h
  · rename_i hcond
    simp only [Option.some_inj, Prod.mk.injEq] at h
    obtain ⟨h1, h2⟩ := h
    subst h1 h2
    exact ⟨ngx_align_ptr_ge fresh al hal, dvd_ngx_align_ptr fresh al, rfl, hcond⟩
  · exact absurd h (by simp)

/-- Every block of a well-formed chain accepts the `tryAlloc` outcome: the
found block is updated in place, the cursor grew monotonically, and the new
region fits below the block's `end`. -/
theorem tryAlloc_spec {sz : Nat} {al : Bool} {psize : Nat}
    (hpsz : psize < MEMLIMIT) (h8 : NGX_ALIGNMENT ∣ psize) :
    ∀ (bs : List BlockD) (m : Nat) (bs' : List BlockD),
      (∀ b ∈ bs, NGX_POOL_ALIGNMENT ∣ b.start ∧ b.start ≤ b.last ∧
        b.last ≤ b.end_ ∧ b.end_ = b.start + psize) →
      tryAlloc sz al bs = some (m, bs') →
      ∃ i, ∃ hi : i < bs.length,
        bs' = bs.set i { bs[i] with last := m + sz } ∧
        bs[i].start ≤ m ∧ bs[i].last ≤ m ∧ m + sz ≤ bs[i].end_ := by
  intro bs
  induction bs with
  | nil => intro m bs' _ h; exact absurd h (by simp [tryAlloc])
  | cons b t ih =>
    intro m bs' hall h
    obtain ⟨hd16, hsl, hle, hend⟩ := hall b (List.mem_cons_self b t)
    have h8s : NGX_ALIGNMENT ∣ b.start := dvd_trans (by decide) hd16
    have h8e : NGX_ALIGNMENT ∣ b.end_ := by
      rw [hend]; exact Nat.dvd_add h8s h8
    simp only [tryAlloc] at h
    set mm := if al then ngx_align_ptr b.last NGX_ALIGNMENT else b.last with hmm
    have hm_ge : b.last ≤ mm := by
      rw [hmm]
      cases al with
      | true => simpa using ngx_align_ptr_ge b.last NGX_ALIGNMENT (by decide)
      | false => simp
    have hm_le : mm ≤ b.end_ := by
      rw [hmm]
      cases al with
      | true => simpa using ngx_align_ptr_le NGX_ALIGNMENT (by decide) hle h8e
      | false => simpa using hle
    split at h
    · rename_i hcond
      have hsub : sizeT_sub b.end_ mm = b.end_ - mm := by
        apply sizeT_sub_eq hm_le
        omega
      rw [hsub] at hcond
      simp only [Option.some_inj, Prod.mk.injEq] at h
      obtain ⟨h1, h2⟩ := h
      subst h1
      refine ⟨0, by simp, ?_, ?_, ?_, ?_⟩
      · rw [← h2]
        rfl
      · simp only [List.getElem_cons_zero]
        omega
      · simpa using hm_ge
      · simp only [List.getElem_cons_zero]
        omega
    · split at h
      · rename_i m' t' hrec
        simp only [Option.some_inj, Prod.mk.injEq] at h
        obtain ⟨h1, h2⟩ := h
        subst h1
        obtain ⟨i, hi, hset, hs1, hs2, hs3⟩ :=
          ih m' t' (fun x hx => hall x (List.mem_cons_of_mem b hx)) hrec
        refine ⟨i + 1, by simp; omega, ?_, by simpa using hs1,
          by simpa using hs2, by simpa using hs3⟩
        rw [← h2, hset]
        rfl
      · exact absurd h (by simp)

/-- `failWalk` preserves each block's `start`, `last` and `end_`. -/
theorem failWalk_mem_fields :
    ∀ (bs : List BlockD), ∀ b ∈ (failWalk bs).1,
      ∃ b0 ∈ bs, b.start = b0.start ∧ b.last = b0.last ∧ b.end_ = b0.end_
  | [] => by simp [failWalk]
  | [b] => by
    intro x hx
    simp only [failWalk] at hx
    rcases List.mem_singleton.mp hx with rfl
    exact ⟨x, by simp, rfl, rfl, rfl⟩
  | b :: b' :: bs => by
    intro x hx
    simp only [failWalk] at hx
    rcases List.mem_cons.mp hx with rfl | hx'
    · exact ⟨b, by simp, rfl, rfl, rfl⟩
    · obtain ⟨b0, hb0, hf⟩ := failWalk_mem_fields (b' :: bs) x hx'
      exact ⟨b0, List.mem_cons_of_mem b hb0, hf⟩

/-- Projection view of the growth result: every index below the old length
keeps its `start`, `last` and `end_`. -/
theorem grown_fields (blocks : List BlockD) (cur : Nat) (newB : BlockD)
    (hcur : cur < blocks.length) :
    ∀ k, k < blocks.length →
      ((blocks.take cur ++ (failWalk (blocks.drop cur)).1 ++ [newB])[k]?).map
          (fun b => (b.start, b.last, b.end_))
        = (blocks[k]?).map (fun b => (b.start, b.last, b.end_)) := by
  intro k hk
  have htakeLen : (blocks.take cur).length = cur := by simp [Nat.le_of_lt hcur]
  have hdropLen : (blocks.drop cur).length = blocks.length - cur := by simp
  rw [List.append_assoc]
  rcases Nat.lt_or_ge k cur with hkc | hkc
  · rw [List.getElem?_append_left (by omega), List.getElem?_take_of_lt hkc]
  · rw [List.getElem?_append_right (by omega), htakeLen]
    rcases Nat.lt_or_ge (k + 1) blocks.length with hk1 | hk1
    · rw [List.getElem?_append_left (by rw [failWalk_fst_length]; omega),
        failWalk_fst_getElem_lt _ (k - cur) (by omega), List.getElem?_drop,
        show cur + (k - cur) = k by omega]
      cases blocks[k]? <;> simp
    · rw [List.getElem?_append_left (by rw [failWalk_fst_length]; omega),
        failWalk_fst_getElem_last _ (k - cur) (by omega), List.getElem?_drop,
        show cur + (k - cur) = k by omega]

theorem pairwise_blocks_set {l : List BlockD} {i : Nat} {v : BlockD}
    (hi : i < l.length)
    (hs : v.start = l[i].start) (he : v.end_ = l[i].end_)
    (h : l.Pairwise fun b b' => b.end_ ≤ b'.start) :
    (l.set i v).Pairwise fun b b' => b.end_ ≤ b'.start := by
  rw [List.pairwise_iff_getElem] at h ⊢
  intro a b ha hb hab
  simp only [List.length_set] at ha hb
  rw [List.getElem_set, List.getElem_set]
  split
  · rename_i h1
    split
    · omega
    · subst h1
      rw [he]
      exact h i b ha hb hab
  · split
    · rename_i h2
      subst h2
      rw [hs]
      exact h a i ha hb hab
    · exact h a b ha hb hab

theorem grown_length (blocks : List BlockD) (cur : Nat) (newB : BlockD)
    (hcur : cur < blocks.length) :
    (blocks.take cur ++ (failWalk (blocks.drop cur)).1 ++ [newB]).length
      = blocks.length + 1 := by
  simp [failWalk_fst_length, Nat.le_of_lt hcur]
  omega

theorem grown_getElem_newB (blocks : List BlockD) (cur : Nat) (newB : BlockD)
    (hcur : cur < blocks.length) :
    (blocks.take cur ++ (failWalk (blocks.drop cur)).1 ++ [newB])[blocks.length]?
      = some newB := by
  have htakeLen : (blocks.take cur).length = cur := by simp [Nat.le_of_lt hcur]
  have hwLen : (failWalk (blocks.drop cur)).1.length = blocks.length - cur := by
    rw [failWalk_fst_length]; simp
  rw [List.append_assoc, List.getElem?_append_right (by omega),
    List.getElem?_append_right (by omega), htakeLen, hwLen,
    show blocks.length - cur - (blocks.length - cur) = 0 by omega]
  rfl

/-- The `tryAlloc` (in-chain) case of the invariant preservation. -/
theorem palloc_small_inv_found {psize : Nat} {pool : Pool} {regs : List (Nat × Nat)}
    {sz : Nat} {al : Bool} {m : Nat} {bs' : List BlockD}
    (hInv : Inv psize pool regs)
    (htry : tryAlloc sz al (pool.blocks.drop pool.current) = some (m, bs')) :
    Inv psize { pool with blocks := pool.blocks.take pool.current ++ bs' }
      ((m, sz) :: regs) := by
  obtain ⟨hcur, hmax80, h8, hpsz, hblk, hsorted, hregs, hdisj⟩ := hInv
  obtain ⟨i, hi, hset, hstart, hlast, hend⟩ := tryAlloc_spec hpsz h8 _ m bs'
    (fun b hb =>
      have hh := hblk b (List.drop_subset _ _ hb)
      ⟨hh.1, hh.2.1, hh.2.2.1, hh.2.2.2.1⟩) htry
  have hilen : i < (pool.blocks.drop pool.current).length := hi
  have hidx : pool.current + i < pool.blocks.length := by
    simp only [List.length_drop] at hilen
    omega
  have hb_idx : (pool.blocks.drop pool.current)[i] = pool.blocks[pool.current + i] := by
    simp [List.getElem_drop]
  set v : BlockD := { pool.blocks[pool.current + i] with last := m + sz } with hv
  have hstart' : pool.blocks[pool.current + i].start ≤ m := by rw [← hb_idx]; exact hstart
  have hlast' : pool.blocks[pool.current + i].last ≤ m := by rw [← hb_idx]; exact hlast
  have hend' : m + sz ≤ pool.blocks[pool.current + i].end_ := by
    rw [← hb_idx]; exact hend
  have hblocks' : pool.blocks.take pool.current ++ bs'
      = pool.blocks.set (pool.current + i) v := by
    rw [hset, hb_idx]
    exact take_append_set pool.blocks pool.current i v
  have hvmem : v ∈ pool.blocks.set (pool.current + i) v :=
    List.mem_iff_getElem?.mpr
      ⟨pool.current + i, List.getElem?_set_self (by simpa using hidx)⟩
  refine ⟨?_, hmax80, h8, hpsz, ?_, ?_, ?_, ?_⟩
  · show pool.current < (pool.blocks.take pool.current ++ bs').length
    rw [hblocks']
    simpa using hcur
  · -- per-block facts
    intro b hb
    show _ ∧ _ ∧ _ ∧ _ ∧ b.end_ ≤ pool.fresh
    simp only at hb
    rw [hblocks'] at hb
    rcases List.mem_or_eq_of_mem_set hb with hb' | rfl
    · exact hblk b hb'
    · obtain ⟨hx1, hx2, hx3, hx4, hx5⟩ :=
        hblk (pool.blocks[pool.current + i]) (List.getElem_mem hidx)
      -- v: start unchanged, cursor m + sz, end unchanged
      exact ⟨hx1, le_trans (le_trans hx2 hlast') (Nat.le_add_right _ _), hend',
        hx4, hx5⟩
  · -- blocks stay sorted
    show List.Pairwise _ _
    simp only
    rw [hblocks']
    exact pairwise_blocks_set hidx rfl rfl hsorted
  · -- every region lies inside a block, below its cursor
    intro r hr
    simp only
    rw [hblocks']
    rcases List.mem_cons.mp hr with rfl | hr'
    · exact ⟨v, hvmem, hstart', le_refl _⟩
    · obtain ⟨b, hbmem, hb1, hb2⟩ := hregs r hr'
      obtain ⟨j, hj, rfl⟩ := List.mem_iff_getElem.mp hbmem
      by_cases hji : j = pool.current + i
      · subst hji
        exact ⟨v, hvmem, hb1,
          le_trans hb2 (le_trans hlast' (Nat.le_add_right _ _))⟩
      · refine ⟨pool.blocks[j], ?_, hb1, hb2⟩
        refine List.mem_iff_getElem?.mpr ⟨j, ?_⟩
        rw [List.getElem?_set_ne (by omega)]
        exact List.getElem?_eq_getElem hj
  · -- pairwise disjointness, new region first
    rw [List.pairwise_cons]
    refine ⟨?_, hdisj⟩
    intro r hr
    obtain ⟨b, hbmem, hb1, hb2⟩ := hregs r hr
    obtain ⟨j, hj, rfl⟩ := List.mem_iff_getElem.mp hbmem
    have hsort := List.pairwise_iff_getElem.mp hsorted
    obtain ⟨_, _, hj3, _, _⟩ := hblk (pool.blocks[j]) (List.getElem_mem hj)
    show m + sz ≤ r.1 ∨ r.1 + r.2 ≤ m
    rcases Nat.lt_trichotomy j (pool.current + i) with hlt | heq | hgt
    · right
      have := hsort j (pool.current + i) hj hidx hlt
      omega
    · subst heq
      right
      omega
    · left
      have := hsort (pool.current + i) j hidx hj hgt
      obtain ⟨_, hs2, _, _, _⟩ := hblk (pool.blocks[j]) (List.getElem_mem hj)
      omega

/-- The `ngx_palloc_block` (growth) case of the invariant preservation. -/
theorem palloc_block_inv {psize : Nat} {pool : Pool} {regs : List (Nat × Nat)}
    {sz m : Nat} {pool' : Pool}
    (hInv : Inv psize pool regs) (hsz : sz ≤ pool.max)
    (h : ngx_palloc_block pool sz = some (m, pool')) :
    Inv psize pool' ((m, sz) :: regs) ∧ pool'.max = pool.max := by
  obtain ⟨hcur, hmax80, h8, hpsz, hblk, hsorted, hregs, hdisj⟩ := hInv
  have h32v : sizeof_ngx_pool_data_t = 32 := rfl
  have h80v : sizeof_ngx_pool_t = 80 := rfl
  simp only [ngx_palloc_block] at h
  split at h
  · rename_i hnil
    rw [hnil] at hcur
    simp at hcur
  · rename_i b0 bs0 hb0
    split at h
    · exact absurd h (by simp)
    · rename_i mb fr hmal
      simp only [Option.some_inj, Prod.mk.injEq] at h
      obtain ⟨hm, hpool⟩ := h
      have hb0mem : b0 ∈ pool.blocks := by rw [hb0]; exact List.mem_cons_self _ _
      obtain ⟨h16b0, _, _, hend0, _⟩ := hblk b0 hb0mem
      have hpsize : sizeT_sub b0.end_ b0.start = psize := by
        rw [hend0]; exact sizeT_sub_add_self hpsz
      rw [hpsize] at hmal
      obtain ⟨hfr_le, h16mb, hfr', hmleq⟩ := ngx_memalign_spec (by decide) hmal
      have h8mb32 : NGX_ALIGNMENT ∣ mb + sizeof_ngx_pool_data_t :=
        Nat.dvd_add (dvd_trans (by decide) h16mb) (by decide)
      have hm32 : m = mb + sizeof_ngx_pool_data_t := by
        rw [← hm]; exact ngx_align_ptr_eq _ (by decide) h8mb32
      rw [hpsize, hm] at hpool
      subst hpool
      set cur := pool.current with hcurd
      set L := pool.blocks.length with hLd
      set newB : BlockD := ⟨mb, m + sz, mb + psize, 0⟩ with hnewBd
      set NL : List BlockD :=
        pool.blocks.take cur ++ (failWalk (pool.blocks.drop cur)).1 ++ [newB]
        with hNLd
      have hLen' : NL.length = L + 1 := grown_length _ _ _ hcur
      have hfld : ∀ k, ∀ hk : k < L, ∀ hk' : k < NL.length,
          NL[k].start = pool.blocks[k].start ∧
          NL[k].last = pool.blocks[k].last ∧
          NL[k].end_ = pool.blocks[k].end_ := by
        intro k hk hk'
        have hgf := grown_fields pool.blocks cur newB hcur k hk
        rw [hNLd] at hk'
        rw [List.getElem?_eq_getElem hk', List.getElem?_eq_getElem hk] at hgf
        simp only [Option.map_some', Option.some_inj, Prod.mk.injEq] at hgf
        exact ⟨hgf.1, hgf.2.1, hgf.2.2⟩
      have hnewat : ∀ hL : L < NL.length, NL[L] = newB := by
        intro hL
        have hg := grown_getElem_newB pool.blocks cur newB hcur
        rw [show (pool.blocks.take cur ++ (failWalk (pool.blocks.drop cur)).1
              ++ [newB]) = NL from rfl] at hg
        rw [List.getElem?_eq_getElem hL] at hg
        exact Option.some_inj.mp hg
      have hnewBmem : newB ∈ NL := by
        rw [hNLd]
        simp
      refine ⟨⟨?_, hmax80, h8, hpsz, ?_, ?_, ?_, ?_⟩, rfl⟩
      · -- current stays within the chain
        show cur + (failWalk (pool.blocks.drop cur)).2.getD 0 < NL.length
        rw [hLen']
        cases hr : (failWalk (pool.blocks.drop cur)).2 with
        | none =>
          simp only [Option.getD_none]
          omega
        | some c =>
          obtain ⟨j, x, hc, hj1, _, _, _⟩ := failWalk_snd_some _ c hr
          have hdl : (pool.blocks.drop cur).length = L - cur := by simp
          simp only [Option.getD_some]
          omega
      · -- per-block facts
        intro b hb
        show _ ∧ _ ∧ _ ∧ _ ∧ b.end_ ≤ fr
        rw [hNLd] at hb
        rcases List.mem_append.mp hb with hb1 | hbn
        · rcases List.mem_append.mp hb1 with hbt | hbw
          · obtain ⟨p1, p2, p3, p4, p5⟩ := hblk b (List.take_subset _ _ hbt)
            exact ⟨p1, p2, p3, p4, by omega⟩
          · obtain ⟨b0', hb0', he1, he2, he3⟩ := failWalk_mem_fields _ b hbw
            obtain ⟨p1, p2, p3, p4, p5⟩ := hblk b0' (List.drop_subset _ _ hb0')
            exact ⟨by rw [he1]; exact p1, by rw [he1, he2]; exact p2,
              by rw [he2, he3]; exact p3, by rw [he3, he1]; exact p4,
              by rw [he3]; omega⟩
        · rcases List.mem_singleton.mp hbn with rfl
          refine ⟨h16mb, by show mb ≤ m + sz; omega, ?_, rfl, by show mb + psize ≤ fr; omega⟩
          show m + sz ≤ mb + psize
          omega
      · -- blocks stay sorted
        show List.Pairwise (fun b b' : BlockD => b.end_ ≤ b'.start) NL
        rw [List.pairwise_iff_getElem]
        intro a b ha hb hab
        rcases Nat.lt_or_ge b L with hbL | hbL
        · obtain ⟨_, _, ha3⟩ := hfld a (by rw [hLen'] at hb; omega) ha
          obtain ⟨hb1, _, _⟩ := hfld b hbL hb
          have hold := List.pairwise_iff_getElem.mp hsorted a b
            (by rw [hLen'] at hb; omega) hbL hab
          omega
        · have hbL' : b = L := by rw [hLen'] at hb; omega
          subst hbL'
          obtain ⟨_, _, ha3⟩ := hfld a (by omega) ha
          have haP : a < pool.blocks.length := by omega
          obtain ⟨_, _, _, _, p5⟩ :=
            hblk (pool.blocks[a]) (List.getElem_mem haP)
          have hnb := hnewat hb
          have hnbs : NL[L].start = mb := by rw [hnb]
          omega
      · -- regions inside blocks
        intro r hr
        rcases List.mem_cons.mp hr with rfl | hr'
        · exact ⟨newB, hnewBmem, by show mb ≤ m; omega, le_refl _⟩
        · obtain ⟨b, hbmem, hb1, hb2⟩ := hregs r hr'
          obtain ⟨j, hj, rfl⟩ := List.mem_iff_getElem.mp hbmem
          have hjNL : j < NL.length := by omega
          obtain ⟨f1, f2, _⟩ := hfld j hj hjNL
          exact ⟨NL[j], List.getElem_mem hjNL, by omega, by omega⟩
      · -- pairwise disjointness
        rw [List.pairwise_cons]
        refine ⟨?_, hdisj⟩
        intro r hr
        obtain ⟨b, hbmem, hb1, hb2⟩ := hregs r hr
        obtain ⟨_, _, hb3, _, hb5⟩ := hblk b hbmem
        show m + sz ≤ r.1 ∨ r.1 + r.2 ≤ m
        right
        omega

/-- Invariant preservation for one small allocation (either variant). -/
theorem palloc_small_inv {psize : Nat} {pool : Pool} {regs : List (Nat × Nat)}
    {sz : Nat} {al : Bool} {m : Nat} {pool' : Pool}
    (hInv : Inv psize pool regs) (hsz : sz ≤ pool.max)
    (h : ngx_palloc_small pool sz al = some (m, pool')) :
    Inv psize pool' ((m, sz) :: regs) ∧ pool'.max = pool.max := by
  unfold ngx_palloc_small at h
  split at h
  · rename_i m0 bs' htry
    simp only [Option.some_inj, Prod.mk.injEq] at h
    obtain ⟨hm, hpool⟩ := h
    subst hm hpool
    exact ⟨palloc_small_inv_found ⟨hInv.1, hInv.2.1, hInv.2.2.1, hInv.2.2.2.1,
      hInv.2.2.2.2.1, hInv.2.2.2.2.2.1, hInv.2.2.2.2.2.2.1,
      hInv.2.2.2.2.2.2.2⟩ htry, rfl⟩
  · exact palloc_block_inv hInv hsz h

/-- A freshly created pool satisfies the invariant with no regions. -/
theorem create_inv (size : Nat) (pool : Pool)
    (h80 : sizeof_ngx_pool_t ≤ size) (h8 : NGX_ALIGNMENT ∣ size)
    (hcr : ngx_create_pool size = some pool) :
    Inv size pool [] := by
  have h16 : ngx_align_ptr NGX_POOL_ALIGNMENT NGX_POOL_ALIGNMENT = 16 := by decide
  have h80v : sizeof_ngx_pool_t = 80 := rfl
  have h4095 : NGX_MAX_ALLOC_FROM_POOL = 4095 := rfl
  simp only [ngx_create_pool, ngx_memalign, h16] at hcr
  split at hcr
  · exact absurd hcr (by simp)
  · rename_i p fr heq
    split at heq
    case isFalse => exact absurd heq (by simp)
    rename_i hcond
    simp only [Option.some_inj, Prod.mk.injEq] at heq
    obtain ⟨hp, hf⟩ := heq
    subst hp hf
    simp only [Option.some_inj] at hcr
    subst hcr
    have hsub : sizeT_sub size sizeof_ngx_pool_t = size - 80 := by
      show sizeT_sub size 80 = size - 80
      exact sizeT_sub_eq (by omega) (by omega)
    refine ⟨by simp, ?_, h8, by omega, ?_, ?_, ?_, ?_⟩
    · show min (sizeT_sub size sizeof_ngx_pool_t) NGX_MAX_ALLOC_FROM_POOL
          + sizeof_ngx_pool_t ≤ size
      rw [hsub]
      omega
    · intro b hb
      rcases List.mem_singleton.mp hb with rfl
      exact ⟨(by decide : NGX_POOL_ALIGNMENT ∣ 16),
        by show (16 : Nat) ≤ 16 + sizeof_ngx_pool_t; omega,
        by show 16 + sizeof_ngx_pool_t ≤ 16 + size; omega, rfl, le_refl _⟩
    · simp
    · intro r hr
      cases hr
    · simp

/-- Invariant preservation along a whole allocation run. -/
theorem runAllocs_inv {psize : Nat} :
    ∀ (reqs : List (Bool × Nat)) (pool : Pool) (acc regs : List (Nat × Nat))
      (pool' : Pool),
      Inv psize pool acc → (∀ r ∈ reqs, r.2 ≤ pool.max) →
      runAllocs pool reqs acc = some (regs, pool') →
      Inv psize pool' regs := by
  intro reqs
  induction reqs with
  | nil =>
    intro pool acc regs pool' hInv _ h
    simp only [runAllocs, Option.some_inj, Prod.mk.injEq] at h
    obtain ⟨h1, h2⟩ := h
    subst h1 h2
    exact hInv
  | cons req rest ih =>
    intro pool acc regs pool' hInv hreq h
    obtain ⟨al, sz⟩ := req
    simp only [runAllocs] at h
    split at h
    · exact absurd h (by simp)
    · rename_i m pool1 heq
      have hsz : sz ≤ pool.max := hreq (al, sz) (List.mem_cons_self _ _)
      have hsmall : ngx_palloc_small pool sz al = some (m, pool1) := by
        cases al with
        | true =>
          rw [if_pos rfl, ngx_palloc, if_pos hsz] at heq
          exact heq
        | false =>
          rw [if_neg (by simp), ngx_pnalloc, if_pos hsz] at heq
          exact heq
      obtain ⟨hInv', hmax'⟩ := palloc_small_inv hInv hsz hsmall
      exact ih pool1 ((m, sz) :: acc) regs pool' hInv'
        (fun r hr => by rw [hmax']; exact hreq r (List.mem_cons_of_mem _ hr)) h

/-- C1: for every sequence of successful small allocations (`ngx_palloc` /
`ngx_pnalloc`, each request within `pool->max`) on a well-formed freshly
created pool, with no intervening reset or destroy, the returned regions
`[ptr, ptr + size)` are pairwise non-overlapping and each lies within some
block's `[start, end)` of the final pool's chain. -/
theorem c1_bump_regions_disjoint (size : Nat) (reqs : List (Bool × Nat))
    (pool : Pool)
    (h80 : sizeof_ngx_pool_t ≤ size) (h8 : NGX_ALIGNMENT ∣ size)
    (hcr : ngx_create_pool size = some pool)
    (hreq : ∀ r ∈ reqs, r.2 ≤ pool.max)
    (regs : List (Nat × Nat)) (pool' : Pool)
    (hrun : runAllocs pool reqs [] = some (regs, pool')) :
    List.Pairwise RegDisj regs ∧
    ∀ r ∈ regs, ∃ b ∈ pool'.blocks, b.start ≤ r.1 ∧ r.1 + r.2 ≤ b.end_ := by
  have hInv := runAllocs_inv reqs pool [] regs pool'
    (create_inv size pool h80 h8 hcr) hreq hrun
  obtain ⟨_, _, _, _, hblk, _, hregs, hdisj⟩ := hInv
  refine ⟨hdisj, ?_⟩
  intro r hr
  obtain ⟨b, hb, h1, h2⟩ := hregs r hr
  obtain ⟨_, _, h3, _, _⟩ := hblk b hb
  exact ⟨b, hb, h1, by omega⟩

/-- Witness for C1: a run with both allocation variants and a block growth
on `pool1024`. -/
theorem c1_bump_regions_disjoint_witness :
    sizeof_ngx_pool_t ≤ 1024 ∧ NGX_ALIGNMENT ∣ 1024 ∧
    ngx_create_pool 1024 = some pool1024 ∧
    (∀ r ∈ c1reqs, r.2 ≤ pool1024.max) ∧
    runAllocs pool1024 c1reqs [] = some (c1regs, c1final) ∧
    (List.Pairwise RegDisj c1regs ∧
     ∀ r ∈ c1regs, ∃ b ∈ c1final.blocks, b.start ≤ r.1 ∧ r.1 + r.2 ≤ b.end_) :=
  ⟨by decide, by decide, rfl, by decide, rfl,
    c1_bump_regions_disjoint 1024 c1reqs pool1024 (by decide) (by decide) rfl
      (by decide) c1regs c1final rfl⟩

end Nginx
